import Mathlib

/-!
Verification development for the react-scitext segmentation and classification
engine.  JavaScript strings are modelled as `List Char` (all inputs of interest
are ASCII, so code units and code points coincide); the regex-based scanners of
the source are modelled as position-by-position matchers with explicit
leftmost-match semantics, mirroring `RegExp.exec` with the `g` flag.
-/

namespace SciText

/-- JavaScript strings are modelled as lists of characters. -/
abbrev Str := List Char

/-- Characters of a Lean string literal, used to write concrete inputs. -/
def strL (s : String) : Str := s.data

/-- Model of `text.substring(a, b)` / `text.slice(a, b)` for `a ≤ b`. -/
def sliceOf (s : Str) (a b : Nat) : Str := (s.drop a).take (b - a)

/-- The whitespace class used by JavaScript `\s` and `trim()` (ASCII whitespace
plus NBSP and the BOM; rarer Unicode space code points, which no input in this
development contains, are omitted). -/
def isJsSpace (c : Char) : Bool :=
  c == ' ' || c == '\t' || c == '\n' || c == '\r' || c == '\x0B' ||
  c == '\x0C' || c == ' ' || c == '﻿'

/-- The regex class `[a-zA-Z_0-9]`. -/
def isWordChar (c : Char) : Bool :=
  ('a' ≤ c && c ≤ 'z') || ('A' ≤ c && c ≤ 'Z') || ('0' ≤ c && c ≤ '9') || c == '_'

/-- The regex class `[a-zA-Z]`. -/
def isAsciiLetter (c : Char) : Bool :=
  ('a' ≤ c && c ≤ 'z') || ('A' ≤ c && c ≤ 'Z')

/-- The regex class `[0-9]` (JavaScript `\d`). -/
def isDigitC (c : Char) : Bool := '0' ≤ c && c ≤ '9'

/-- The regex class `[A-Z]`. -/
def isUpperC (c : Char) : Bool := 'A' ≤ c && c ≤ 'Z'

/-- The regex class `[a-z]`. -/
def isLowerC (c : Char) : Bool := 'a' ≤ c && c ≤ 'z'

/-- Whether `pat` is a prefix of `s` (literal-prefix test for regex matching). -/
def startsWithL (pat s : Str) : Bool := decide (s.take pat.length = pat)

/-- Whether `pat` is a suffix of `s` (used for end-anchored regex parts). -/
def endsWithL (pat s : Str) : Bool :=
  decide (pat.length ≤ s.length ∧ s.drop (s.length - pat.length) = pat)

/-- Index of the first occurrence of `pat` as a contiguous sublist of `s`,
modelling the position found by a lazy regex quantifier followed by the literal
`pat`. -/
def findSub (pat : Str) : Str → Option Nat
  | [] => if pat = [] then some 0 else none
  | c :: cs => if startsWithL pat (c :: cs) then some 0 else (findSub pat cs).map (· + 1)

/-- Model of JavaScript `String.prototype.includes`. -/
def includesSub (s pat : Str) : Bool := (findSub pat s).isSome

/-- Model of JavaScript `String.prototype.trim`. -/
def jsTrim (s : Str) : Str :=
  ((s.dropWhile isJsSpace).reverse.dropWhile isJsSpace).reverse

/-- The two tag kinds matched by the pattern `(begin|end)` in `findTopLevelEnvs`. -/
inductive TagKind where
  | beginT
  | endT
deriving DecidableEq

/-- One scanned occurrence of `\begin{name}` or `\end{name}`, mirroring the
record `{type, env, index, length}` built in `findTopLevelEnvs`. -/
structure EnvTag where
  kind : TagKind
  env : Str
  index : Nat
  length : Nat
deriving DecidableEq

/-- The literal text of a tag: `\begin{name}` or `\end{name}`. -/
def tagLit (k : TagKind) (name : Str) : Str :=
  match k with
  | .beginT => strL "\\begin\x7b" ++ name ++ ['}']
  | .endT => strL "\\end\x7b" ++ name ++ ['}']

/-- Attempt of the regex `\\(begin|end)\{([^}]+)\}` at the start of `s`
(the returned tag has `index := 0`; the scanner fills in the real position). -/
def matchTagAt (s : Str) : Option EnvTag :=
  if startsWithL (strL "\\begin\x7b") s then
    let rest := s.drop 7
    let name := rest.takeWhile (fun c => c ≠ '}')
    if name ≠ [] ∧ rest.get? name.length = some '}' then
      some ⟨.beginT, name, 0, 7 + name.length + 1⟩
    else none
  else if startsWithL (strL "\\end\x7b") s then
    let rest := s.drop 5
    let name := rest.takeWhile (fun c => c ≠ '}')
    if name ≠ [] ∧ rest.get? name.length = some '}' then
      some ⟨.endT, name, 0, 5 + name.length + 1⟩
    else none
  else none

/-- Global scan of the tag regex over `s`: `pos` is the absolute position of the
head of `s`, and `skip` counts characters of a previously found match that the
scan still has to jump over (this realises `lastIndex` advancing to the end of
each match while keeping the recursion structural). -/
def scanTagsA : Str → Nat → Nat → List EnvTag
  | [], _, _ => []
  | _ :: cs, pos, skip + 1 => scanTagsA cs (pos + 1) skip
  | c :: cs, pos, 0 =>
    match matchTagAt (c :: cs) with
    | some t => { t with index := pos } :: scanTagsA cs (pos + 1) (t.length - 1)
    | none => scanTagsA cs (pos + 1) 0

/-- The full tag stream of `text`, as collected by the while-loop of
`findTopLevelEnvs`. -/
def scanTags (text : Str) : List EnvTag := scanTagsA text 0 0

/-- One top-level environment span `{start, end, content}` (`end` is a Lean
keyword, hence `endIdx`). -/
structure LatexEnv where
  start : Nat
  endIdx : Nat
  content : Str
deriving DecidableEq

/-- The stack loop of `findTopLevelEnvs`: push begin tags; on an end tag whose
name equals the stack top, pop, and emit a span when the stack empties; a
mismatched or unmatched end tag is silently ignored. -/
def processTags (text : Str) : List EnvTag → List EnvTag → List LatexEnv → List LatexEnv
  | [], _, envs => envs
  | t :: rest, stack, envs =>
    match t.kind with
    | .beginT => processTags text rest (t :: stack) envs
    | .endT =>
      match stack with
      | [] => processTags text rest [] envs
      | top :: stack' =>
        if top.env = t.env then
          if stack' = [] then
            processTags text rest stack'
              (envs ++ [⟨top.index, t.index + t.length,
                sliceOf text top.index (t.index + t.length)⟩])
          else processTags text rest stack' envs
        else processTags text rest (top :: stack') envs

/-- Stable insertion of `x` into a list sorted by `key`, placing `x` before the
first element with a key `≥ key x` (the stability JavaScript guarantees for
`Array.prototype.sort`). -/
def insertByKey (key : α → Nat) (x : α) : List α → List α
  | [] => [x]
  | y :: ys => if key x ≤ key y then x :: y :: ys else y :: insertByKey key x ys

/-- Stable sort by a numeric key, modelling `.sort((a, b) => key a - key b)`. -/
def sortByKey (key : α → Nat) : List α → List α
  | [] => []
  | x :: xs => insertByKey key x (sortByKey key xs)

/-- Model of `findTopLevelEnvs` (src/utils/latex.ts): scan all begin/end tags,
run the stack loop, and sort the emitted spans by start position. -/
def findTopLevelEnvs (text : Str) : List LatexEnv :=
  sortByKey LatexEnv.start (processTags text (scanTags text) [] [])

/-- Length of the match of the alternation
`(\\\(.+?\\\)|\$\$.*?\$\$|\$.*?\$|\\\[.*?\\\])` (flags `gs`) at the start of a
string, used by `splitLatex`; the alternatives are tried in source order. -/
def matchDelimLen (s : Str) : Option Nat :=
  (if startsWithL (strL "\\(") s then (findSub (strL "\\)") (s.drop 3)).map (· + 5) else none) <|>
  (if startsWithL (strL "$$") s then (findSub (strL "$$") (s.drop 2)).map (· + 4) else none) <|>
  (if startsWithL (strL "$") s then (findSub (strL "$") (s.drop 1)).map (· + 2) else none) <|>
  (if startsWithL (strL "\\[") s then (findSub (strL "\\]") (s.drop 2)).map (· + 4) else none)

/-- Splitting loop of `splitLatex`: `acc` holds the current in-between chunk in
reverse; `fuel` begins at the string length (every step consumes at least one
character, so it never runs out, and the fallback keeps concatenation intact). -/
def splitLatexAux : Nat → Str → Str → List Str
  | _, acc, [] => [acc.reverse]
  | 0, acc, s => [acc.reverse ++ s]
  | fuel + 1, acc, c :: cs =>
    match matchDelimLen (c :: cs) with
    | some n =>
      if 1 ≤ n then
        acc.reverse :: (c :: cs).take n :: splitLatexAux fuel [] ((c :: cs).drop n)
      else splitLatexAux fuel (c :: acc) cs
    | none => splitLatexAux fuel (c :: acc) cs

/-- Model of `splitLatex` (src/utils/latex.ts): `String.prototype.split` on the
capturing delimiter alternation, whose result interleaves the in-between chunks
with the captured delimiters. -/
def splitLatex (s : Str) : List Str := splitLatexAux s.length [] s

/-- Model of `isInlineLatexFragment`: the anchored regex `^\\\((.+?)\\\)$`
(flag `s`); on a match the captured body is everything strictly between the
delimiters, which must be non-empty. -/
def isInlineLatexFragment (fragment : Str) : Option Str :=
  if 5 ≤ fragment.length ∧ startsWithL (strL "\\(") fragment = true ∧
      endsWithL (strL "\\)") fragment = true then
    some ((fragment.drop 2).take (fragment.length - 4))
  else none

/-- Whether `sub` occurs in `s` (JavaScript `String.prototype.includes`). -/
def containsSub (s sub : Str) : Bool := (findSub sub s).isSome

/-- Model of `isSmallVariableLatex`: the anchored regex
`^\\\(\s*([a-zA-Z_0-9]{1,3})\s*\\\)$` (flag `s`) followed by the source's
`content.includes` rejections (backslash, braces, caret, underscore, `frac`). -/
def isSmallVariableLatex (fragment : Str) : Option Str :=
  if 4 ≤ fragment.length ∧ startsWithL (strL "\\(") fragment = true ∧
      endsWithL (strL "\\)") fragment = true then
    let middle := (fragment.drop 2).take (fragment.length - 4)
    let afterWs := middle.dropWhile isJsSpace
    let core := afterWs.takeWhile isWordChar
    let rest := afterWs.drop core.length
    if 1 ≤ core.length ∧ core.length ≤ 3 ∧ rest.all isJsSpace = true then
      if core.contains '\\' || core.contains '{' || core.contains '}' ||
          core.contains '^' || core.contains '_' || containsSub core (strL "frac") then
        none
      else some core
    else none
  else none

/-- Model of `isSimpleVariable`: the anchored regex
`^\$([a-zA-Z][a-zA-Z0-9_]{0,2})\$$` (flag `s`) followed by the source's
`content.includes` and length rejections. -/
def isSimpleVariable (fragment : Str) : Option Str :=
  if 3 ≤ fragment.length ∧ fragment.get? 0 = some '$' ∧
      fragment.get? (fragment.length - 1) = some '$' then
    let inner := (fragment.drop 1).take (fragment.length - 2)
    let shapeOk :=
      match inner with
      | [] => false
      | c :: rest => isAsciiLetter c && rest.length ≤ 2 && rest.all isWordChar
    if shapeOk then
      if inner.contains '\\' || inner.contains '{' || inner.contains '}' ||
          inner.contains '^' || inner.contains '_' || containsSub inner (strL "frac") ||
          inner.contains '+' || inner.contains '-' || inner.contains '*' ||
          inner.contains '/' || inner.contains '=' || inner.contains '(' ||
          inner.contains ')' || decide (3 < inner.length) then
        none
      else some inner
    else none
  else none

/-- Indicator pattern 1 of `isSelectiveInlineLatex`: the character class of
mathematical operators and symbols. -/
def isMathOpChar (c : Char) : Bool :=
  c ∈ ['+', '-', '*', '/', '=', '<', '>', '≤', '≥', '≠', '±', '∞', '∑', '∏',
       '∫', '∪', '∩', '∈', '∉', '⊆', '⊇', '∅', '∀', '∃', '∴', '∝']

/-- The command names of indicator pattern 2, in source order. -/
def latexFnNames : List Str :=
  [strL "frac", strL "sqrt", strL "int", strL "sum", strL "prod", strL "lim",
   strL "sin", strL "cos", strL "tan", strL "log", strL "ln", strL "exp",
   strL "times", strL "cup", strL "cap", strL "subset", strL "supset",
   strL "in", strL "notin", strL "forall", strL "exists", strL "therefore",
   strL "propto"]

/-- Indicator pattern 2: a backslash followed by one of the known command names. -/
def selPat2 : Str → Bool
  | [] => false
  | c :: rest => (c == '\\' && latexFnNames.any fun w => startsWithL w rest) || selPat2 rest

/-- The operator class of indicator pattern 3: `[+\-*/=,]`. -/
def isParenOpChar (c : Char) : Bool :=
  c == '+' || c == '-' || c == '*' || c == '/' || c == '=' || c == ','

/-- Indicator pattern 3: `\([^)]*[+\-*/=,][^)]*\)` — a parenthesised stretch,
closed before any other `)`, containing an operator or comma. -/
def selPat3 : Str → Bool
  | [] => false
  | c :: rest =>
    (c == '(' && (rest.takeWhile (· ≠ ')')).any isParenOpChar && rest.contains ')') ||
    selPat3 rest

/-- Indicator pattern 4: `\{[^}]*[,=][^}]*\}` — a braced stretch containing a
comma or equals sign. -/
def selPat4 : Str → Bool
  | [] => false
  | c :: rest =>
    (c == '{' && (rest.takeWhile (· ≠ '}')).any (fun d => d == ',' || d == '=') &&
      rest.contains '}') ||
    selPat4 rest

/-- Stage of indicator pattern 5 after the opening parenthesis: `[^)]*,[^)]*\)`
followed by `[^}]*\}`. -/
def selPat5AfterParen (u : Str) : Bool :=
  let segB := u.takeWhile (· ≠ ')')
  segB.contains ',' && u.contains ')' && (u.drop (segB.length + 1)).contains '}'

/-- Stage of indicator pattern 5 scanning `[^}]*\(` after the opening brace. -/
def selPat5FindParen : Str → Bool
  | [] => false
  | c :: rest =>
    if c == '}' then false
    else (c == '(' && selPat5AfterParen rest) || selPat5FindParen rest

/-- Indicator pattern 5: `\{[^}]*\([^)]*,[^)]*\)[^}]*\}` — a braced set
containing a parenthesised coordinate pair. -/
def selPat5 : Str → Bool
  | [] => false
  | c :: rest => (c == '{' && selPat5FindParen rest) || selPat5 rest

/-- Whether a string starts with a decimal digit. -/
def startsDigit : Str → Bool
  | [] => false
  | c :: _ => isDigitC c

/-- Tail of indicator pattern 7 after the capital letter: `[a-z]?_?\d+`. -/
def selPat7Tail : Str → Bool
  | [] => false
  | a :: as =>
    isDigitC a ||
    (isLowerC a && (match as with
      | [] => false
      | b :: bs => isDigitC b || (b == '_' && startsDigit bs))) ||
    (a == '_' && startsDigit as)

/-- Indicator pattern 7: `[A-Z][a-z]?_?\d+` — a chemical-formula-like token. -/
def selPat7 : Str → Bool
  | [] => false
  | c :: rest => (isUpperC c && selPat7Tail rest) || selPat7 rest

/-- Indicator pattern 8: `\\[a-zA-Z]+` — any backslash-prefixed command. -/
def selPat8 : Str → Bool
  | [] => false
  | c :: rest =>
    (c == '\\' && (match rest with | [] => false | d :: _ => isAsciiLetter d)) ||
    selPat8 rest

/-- Indicator pattern 9: `\d+\s*[a-zA-Z]` — a digit, optional whitespace, then a
letter (note the regex permits whitespace between the digits and the letter). -/
def selPat9 : Str → Bool
  | [] => false
  | c :: rest =>
    (isDigitC c && (match rest.dropWhile isJsSpace with
      | d :: _ => isAsciiLetter d
      | [] => false)) ||
    selPat9 rest

/-- Tail of indicator pattern 10 after `=`: `\s*[^,}]` — a following character
that is not a comma or closing brace, possibly after whitespace (a whitespace
character itself satisfies `[^,}]`, so any character after an equals sign other
than an immediate comma or brace matches). -/
def selPat10AfterEq : Str → Bool
  | [] => false
  | d :: _ => isJsSpace d || !(d == ',' || d == '}')

/-- Indicator pattern 10: `[a-zA-Z]\s*[=]\s*[^,}]` — a variable assignment. -/
def selPat10 : Str → Bool
  | [] => false
  | c :: rest =>
    (isAsciiLetter c && (match rest.dropWhile isJsSpace with
      | '=' :: r => selPat10AfterEq r
      | _ => false)) ||
    selPat10 rest

/-- Disjunction of the ten `mathPatterns` of `isSelectiveInlineLatex`, in
source order. -/
def mathIndicator (content : Str) : Bool :=
  content.any isMathOpChar || selPat2 content || selPat3 content ||
  selPat4 content || selPat5 content ||
  content.any (fun c => c == '_' || c == '^') || selPat7 content ||
  selPat8 content || selPat9 content || selPat10 content

/-- Model of `isSelectiveInlineLatex`: the anchored regex `^\$(.+?)\$$`
(flag `s`) — first and last characters are `$` with a non-empty body — and the
body must satisfy at least one indicator pattern. -/
def isSelectiveInlineLatex (fragment : Str) : Option Str :=
  if 3 ≤ fragment.length ∧ fragment.get? 0 = some '$' ∧
      fragment.get? (fragment.length - 1) = some '$' then
    let content := (fragment.drop 1).take (fragment.length - 2)
    if mathIndicator content then some content else none
  else none

/-- Model of `isLatexEnvironment`: the anchored regex
`^\\begin\{([^}]+)\}(.*?)\\end\{\1\}$` (flag `s`); the name capture runs to the
first `}`, and the fragment must end with `\end{name}`.  Returns the captured
name and middle. -/
def isLatexEnvironmentM (fragment : Str) : Option (Str × Str) :=
  if startsWithL (strL "\\begin\x7b") fragment then
    let rest := fragment.drop 7
    let name := rest.takeWhile (fun c => c ≠ '}')
    if name ≠ [] ∧ rest.get? name.length = some '}' then
      let after := rest.drop (name.length + 1)
      let endTag := strL "\\end\x7b" ++ name ++ ['}']
      if endsWithL endTag after then
        some (name, after.take (after.length - endTag.length))
      else none
    else none
  else none

/-- Model of `validateLatexInput`: reject input containing any of the dangerous
LaTeX primitives (all patterns are literal substring tests). -/
def validateLatexInput (input : Str) : Bool :=
  !([strL "\\input\x7b", strL "\\include\x7b", strL "\\write", strL "\\read",
     strL "\\openin", strL "\\openout", strL "\\immediate", strL "\\special",
     strL "\\pdfliteral"].any fun p => containsSub input p)

/-- One global-regex match: absolute position and matched text. -/
structure RawMatch where
  index : Nat
  str : Str
deriving DecidableEq

/-- Generic global-regex scan: try the matcher `m` at every position, emit the
match and resume after its end (`skip` counts characters of the current match
still to jump over, keeping the recursion structural; a hypothetical empty
match is skipped, which none of the matchers below can produce). -/
def scanA (m : Str → Option Nat) : Str → Nat → Nat → List RawMatch
  | [], _, _ => []
  | _ :: cs, pos, skip + 1 => scanA m cs (pos + 1) skip
  | c :: cs, pos, 0 =>
    match m (c :: cs) with
    | some n =>
      if 1 ≤ n then ⟨pos, (c :: cs).take n⟩ :: scanA m cs (pos + 1) (n - 1)
      else scanA m cs (pos + 1) 0
    | none => scanA m cs (pos + 1) 0

/-- Variant of `scanA` for a multiline-anchored pattern (`^...` with flag `m`):
the matcher is only tried at positions that start a line, tracked by `atLS`. -/
def scanHeadA (m : Str → Option Nat) : Str → Nat → Nat → Bool → List RawMatch
  | [], _, _, _ => []
  | c :: cs, pos, skip + 1, _ => scanHeadA m cs (pos + 1) skip (c == '\n')
  | c :: cs, pos, 0, atLS =>
    if atLS then
      match m (c :: cs) with
      | some n =>
        if 1 ≤ n then ⟨pos, (c :: cs).take n⟩ :: scanHeadA m cs (pos + 1) (n - 1) (c == '\n')
        else scanHeadA m cs (pos + 1) 0 (c == '\n')
      | none => scanHeadA m cs (pos + 1) 0 (c == '\n')
    else scanHeadA m cs (pos + 1) 0 (c == '\n')

/-- Matcher for `<smiles>.*?<\/smiles>` (flags `gs`) at the start of a string. -/
def smilesMatcher (s : Str) : Option Nat :=
  if startsWithL (strL "<smiles>") s then
    (findSub (strL "</smiles>") (s.drop 8)).map (fun j => 8 + j + 9)
  else none

/-- Matcher for the block-math alternation `(\$\$.*?\$\$|\\\[.*?\\\])`
(flags `gs`) at the start of a string. -/
def blockMatcher (s : Str) : Option Nat :=
  if startsWithL (strL "$$") s then
    (findSub (strL "$$") (s.drop 2)).map (fun j => 2 + j + 2)
  else if startsWithL (strL "\\[") s then
    (findSub (strL "\\]") (s.drop 2)).map (fun j => 2 + j + 2)
  else none

/-- Second inline alternative `\$[^$\s][^$]*[^$\s]\$`: a dollar, a non-space
non-dollar character, then (after backtracking of the greedy `[^$]*`) the first
dollar of the remainder, whose preceding character must not be whitespace. -/
def inlineAlt2 : Str → Option Nat
  | c0 :: c1 :: u =>
    if c0 = '$' ∧ ¬ (c1 = '$' ∨ isJsSpace c1 = true) then
      match findSub ['$'] u with
      | some d =>
        if 1 ≤ d then
          match u.get? (d - 1) with
          | some cp => if isJsSpace cp then none else some (d + 3)
          | none => none
        else none
      | none => none
    else none
  | _ => none

/-- Third inline alternative `\$[^$\s]+\$`: a dollar, a maximal non-empty run of
non-space non-dollar characters, then a dollar. -/
def inlineAlt3 : Str → Option Nat
  | c0 :: t =>
    if c0 = '$' then
      let k := (t.takeWhile fun c => ¬ (c = '$' ∨ isJsSpace c = true)).length
      if 1 ≤ k ∧ t.get? k = some '$' then some (k + 2) else none
    else none
  | [] => none

/-- Matcher for the inline-math alternation
`(\\\(.*?\\\)|\$[^$\s][^$]*[^$\s]\$|\$[^$\s]+\$)` (flags `gs`) at the start of
a string, alternatives tried in source order. -/
def inlineMatcher (s : Str) : Option Nat :=
  (if startsWithL (strL "\\(") s then (findSub (strL "\\)") (s.drop 2)).map (· + 4) else none) <|>
  inlineAlt2 s <|> inlineAlt3 s

/-- For the heading pattern: the largest whitespace-prefix length `e ∈ [1, W]`
the greedy `\s+` can keep while `(.+)` still finds a non-newline character at
`q[e]` (searched downward, mirroring backtracking). -/
def headingFindE (q : Str) : Nat → Option Nat
  | 0 => none
  | e + 1 =>
    match q.get? (e + 1) with
    | some c => if c ≠ '\n' then some (e + 1) else headingFindE q e
    | none => headingFindE q e

/-- Matcher for `^(#{1,6})\s+(.+)$` (flags `gm`) at a line-start position:
a run of one to six hashes, at least one whitespace character, then non-newline
content up to the end of the line. -/
def headingMatcher (s : Str) : Option Nat :=
  let h := (s.takeWhile (· = '#')).length
  if 1 ≤ h ∧ h ≤ 6 then
    let q := s.drop h
    let W := (q.takeWhile isJsSpace).length
    let e? :=
      if W < q.length then
        if q.get? W ≠ some '\n' ∧ 1 ≤ W then some W else headingFindE q (W - 1)
      else headingFindE q (W - 1)
    match e? with
    | some e => some (h + e + ((q.drop e).takeWhile (· ≠ '\n')).length)
    | none => none
  else none

/-- The match types of `ContentParser`. -/
inductive MatchType where
  | smiles
  | heading
  | math
  | env
deriving DecidableEq

/-- One span of `ContentParser.parseContent`: `{start, end, content, type}`
(`end` is a Lean keyword, hence `endIdx`). -/
structure ContentMatch where
  start : Nat
  endIdx : Nat
  content : Str
  type : MatchType
deriving DecidableEq

/-- Model of `ContentParser.findSmilesMatches`. -/
def findSmilesMatches (text : Str) : List ContentMatch :=
  (scanA smilesMatcher text 0 0).map fun r =>
    ⟨r.index, r.index + r.str.length, r.str, .smiles⟩

/-- Model of `ContentParser.findHeadingMatches` (position 0 starts a line). -/
def findHeadingMatches (text : Str) : List ContentMatch :=
  (scanHeadA headingMatcher text 0 0 true).map fun r =>
    ⟨r.index, r.index + r.str.length, r.str, .heading⟩

/-- The block-math half of `ContentParser.findMathMatches`. -/
def findBlockMathMatches (text : Str) : List ContentMatch :=
  (scanA blockMatcher text 0 0).map fun r =>
    ⟨r.index, r.index + r.str.length, r.str, .math⟩

/-- The inline-math candidates scanned by `ContentParser.findMathMatches`. -/
def inlineCandidates (text : Str) : List RawMatch := scanA inlineMatcher text 0 0

/-- Model of `text.lastIndexOf("\n", i - 1)`: the largest newline position
before `i` (the `i = 0` corner of `lastIndexOf` differs only in a case whose
resulting line prefix is empty either way). -/
def lastNewlineBefore (text : Str) (i : Nat) : Option Nat :=
  ((List.range i).filter fun k => text.get? k == some '\n').getLast?

/-- Model of `ContentParser.isInListContext`: the current line up to the match
position consists only of whitespace, one bullet character, and whitespace
(regex `^\s*[-*+]\s*$`). -/
def isInListContext (text : Str) (index : Nat) : Bool :=
  let lineStart :=
    match lastNewlineBefore text index with
    | some k => k + 1
    | none => 0
  let pfx := sliceOf text lineStart index
  match pfx.dropWhile isJsSpace with
  | c :: rest => (c == '-' || c == '*' || c == '+') && rest.all isJsSpace
  | [] => false

/-- Model of `ContentParser.shouldSkipMathFragment`: simple `$…$` variables,
small `\(…\)` variables, and `$…$` fragments that fail the selective test are
kept out of the math spans. -/
def shouldSkipMathFragment (fragment : Str) : Bool :=
  let dollarNotDouble :=
    startsWithL (strL "$") fragment && !(startsWithL (strL "$$") fragment)
  if dollarNotDouble && (isSimpleVariable fragment).isSome then true
  else if startsWithL (strL "\\(") fragment && endsWithL (strL "\\)") fragment &&
      (isSmallVariableLatex fragment).isSome then true
  else if dollarNotDouble && !(isSelectiveInlineLatex fragment).isSome then true
  else false

/-- The overlap test of `findMathMatches` against the accumulated matches. -/
def overlapsExisting (acc : List ContentMatch) (r : RawMatch) : Bool :=
  acc.any fun ex => decide (r.index < ex.endIdx ∧ ex.start < r.index + r.str.length)

/-- The inline-candidate loop of `findMathMatches`: each candidate is dropped if
it overlaps an already-recorded span, follows a bare list bullet, or is filtered
by `shouldSkipMathFragment`; otherwise it is appended as a math span. -/
def addInlineMatches (text : Str) : List ContentMatch → List RawMatch → List ContentMatch
  | acc, [] => acc
  | acc, r :: rs =>
    if overlapsExisting acc r then addInlineMatches text acc rs
    else if isInListContext text r.index then addInlineMatches text acc rs
    else if shouldSkipMathFragment r.str then addInlineMatches text acc rs
    else addInlineMatches text (acc ++ [⟨r.index, r.index + r.str.length, r.str, .math⟩]) rs

/-- The containment test of `filterNestedMatches` (`match` lies inside
`other`). -/
def isNestedIn (m other : ContentMatch) : Bool :=
  decide (other.start ≤ m.start ∧ m.endIdx ≤ other.endIdx)

/-- Model of `ContentParser.filterNestedMatches`: sort by start, then drop every
span contained in a differently-indexed span of the sorted array (the source
compares array indices, so two identical spans eliminate each other). -/
def filterNestedMatches (l : List ContentMatch) : List ContentMatch :=
  let sorted := sortByKey ContentMatch.start l
  let en := sorted.enum
  (en.filter fun p => !(en.any fun q => q.1 != p.1 && isNestedIn p.2 q.2)).map Prod.snd

/-- Model of `ContentParser.parseContent`: collect SMILES, heading, math and
environment spans in source order (the inline loop checks overlap against all
spans accumulated so far), then sort and filter nested spans. -/
def parseContent (text : Str) : List ContentMatch :=
  let m1 := findSmilesMatches text
  let m2 := m1 ++ findHeadingMatches text
  let m3 := m2 ++ findBlockMathMatches text
  let m4 := addInlineMatches text m3 (inlineCandidates text)
  let m5 := m4 ++ (findTopLevelEnvs text).map fun e => ⟨e.start, e.endIdx, e.content, .env⟩
  filterNestedMatches m5

/-- Helper for the dangerous-pattern tests of `validateMarkdownContent` with
shape `<tag[^>]*>`: an occurrence of the literal opener followed eventually by a
`>`. -/
def htmlTagPat (opener : Str) : Str → Bool
  | [] => false
  | c :: rest =>
    (startsWithL opener (c :: rest) && ((c :: rest).drop opener.length).contains '>') ||
    htmlTagPat opener rest

/-- The dangerous-pattern scan of `validateMarkdownContent` (all patterns carry
flag `i`, modelled by lower-casing the content first; each regex object is
created fresh per call, so the `g` flag has no cross-call effect). -/
def dangerousMarkdown (content : Str) : Bool :=
  let lower := content.map Char.toLower
  containsSub lower (strL "javascript:") ||
  containsSub lower (strL "data:text/html") ||
  containsSub lower (strL "vbscript:") ||
  htmlTagPat (strL "<script") lower ||
  htmlTagPat (strL "<iframe") lower ||
  htmlTagPat (strL "<object") lower ||
  htmlTagPat (strL "<embed") lower ||
  htmlTagPat (strL "<link") lower ||
  htmlTagPat (strL "<meta") lower

/-- Model of `validateMarkdownContent` (src/utils/markdown.tsx): reject empty
input, input longer than 100000 characters, and input containing a dangerous
HTML/script pattern. -/
def validateMarkdownContent (content : Str) : Bool :=
  if content = [] then false
  else if 100000 < content.length then false
  else !(dangerousMarkdown content)

/-- The wrapper strip of `parseLatexList`: `content.replace(/^\\begin\{[^}]+\}/s, "")`
(anchored, so it only removes a leading begin tag). -/
def stripBeginTag (content : Str) : Str :=
  if startsWithL (strL "\\begin\x7b") content then
    let rest := content.drop 7
    let name := rest.takeWhile (fun c => c ≠ '}')
    if name ≠ [] ∧ rest.get? name.length = some '}' then rest.drop (name.length + 1)
    else content
  else content

/-- Whether `s` is exactly `\end{name}` for some non-empty brace-free `name`. -/
def isEndTagToEnd (s : Str) : Bool :=
  startsWithL (strL "\\end\x7b") s &&
    (let nm := (s.drop 5).takeWhile (fun c => c ≠ '}')
     decide (nm ≠ []) && decide ((s.drop 5).drop nm.length = ['}']))

/-- Leftmost start of an end-anchored `\end{…}` suffix match, for
`content.replace(/\\end\{[^}]+\}$/s, "")`. -/
def findEndTagIdx : Str → Option Nat
  | [] => none
  | c :: rest =>
    if isEndTagToEnd (c :: rest) then some 0 else (findEndTagIdx rest).map (· + 1)

/-- The suffix strip of `parseLatexList`. -/
def stripEndTag (content : Str) : Str :=
  match findEndTagIdx content with
  | some i => content.take i
  | none => content

/-- The decimal digits of a placeholder counter. -/
def natDigits (n : Nat) : Str := (toString n).data

/-- The placeholder token `__LATEX_ENV_PLACEHOLDER_i__` of `parseLatexList`. -/
def envPlaceholder (i : Nat) : Str :=
  strL "__LATEX_ENV_PLACEHOLDER_" ++ natDigits i ++ strL "__"

/-- The placeholder substitution loop of `parseLatexList`: replace each
top-level sub-environment of the body with its placeholder token. -/
def substEnvPlaceholders (inner : Str) (subEnvs : List LatexEnv) : Str :=
  let step := fun (acc : Str × Nat) (p : Nat × LatexEnv) =>
    (acc.1 ++ sliceOf inner acc.2 p.2.start ++ envPlaceholder p.1, p.2.endIdx)
  let res := subEnvs.enum.foldl step ([], 0)
  res.1 ++ inner.drop res.2

/-- Splitting loop for `split(/\\item/)` (the separator is a literal token and
is dropped; `fuel` starts at the string length and never runs out). -/
def splitOnTokenAux (tok : Str) : Nat → Str → Str → List Str
  | _, acc, [] => [acc.reverse]
  | 0, acc, s => [acc.reverse ++ s]
  | fuel + 1, acc, c :: cs =>
    if startsWithL tok (c :: cs) && decide (tok ≠ []) then
      acc.reverse :: splitOnTokenAux tok fuel [] ((c :: cs).drop tok.length)
    else splitOnTokenAux tok fuel (c :: acc) cs

/-- JavaScript `String.prototype.split` on a literal token. -/
def splitOnToken (tok s : Str) : List Str := splitOnTokenAux tok s.length [] s

/-- The item extraction of `parseLatexList` (src/processors/LatexProcessor.tsx):
strip the `\begin`/`\end` wrapper, trim, replace top-level sub-environments by
placeholders, split on `\item`, drop empty-after-trim segments, and fall back to
the whole body as a single item when the split yields nothing but the body is
non-empty.  The returned strings are the `items` array whose entries the source
then renders (each rendered as its trimmed form). -/
def parseLatexListItems (content : Str) : List Str :=
  let innerContent := jsTrim (stripEndTag (stripBeginTag content))
  let subEnvs := findTopLevelEnvs innerContent
  let processedContent := substEnvPlaceholders innerContent subEnvs
  let items := (splitOnToken (strL "\\item") processedContent).filter
    fun item => decide (jsTrim item ≠ [])
  if items = [] ∧ jsTrim processedContent ≠ [] then [jsTrim processedContent]
  else items

/-- The children the RichText orchestrator can emit.  Sub-renderers whose
internal element structure no claim depends on (the markdown engine hand-off,
`renderLatex`, `renderHeading`, the SMILES component, the fallbacks) are
represented as leaf nodes recording the exact arguments the source passes them —
they are pure functions of those arguments, so tree equality coincides with
equality of the rendered output. -/
inductive JsxChild where
  | smilesNode (idx : Nat) (code : Str)
  | headingWrap (idx level : Nat) (text : Str)
  | latexErrorDiv (idx : Nat)
  | renderLatexBlock (idx : Nat) (content : Str)
  | renderLatexInline (idx : Nat) (content : Str)
  | fallbackSpan (idx : Nat) (content : Str)
  | mdFragment (text : Str) (idx : Nat)
  | textWithSmallVars (text : Str) (key : Option Nat)
  | fallbackMarkdown (content : Str)
  | fallbackPlain (content : Str)
deriving DecidableEq

/-- The top-level elements `RichText` can return. -/
inductive Jsx where
  | errorDiv
  | proseDiv (children : List JsxChild)
  | proseInlineSpan (children : List JsxChild)
deriving DecidableEq

/-- The first-match extraction `match.content.match(/<smiles>(.*?)<\/smiles>/)`
(no `s` flag, so the captured code may not contain a newline). -/
def extractSmilesCode : Str → Option Str
  | [] => none
  | c :: rest =>
    if startsWithL (strL "<smiles>") (c :: rest) then
      match findSub (strL "</smiles>") ((c :: rest).drop 8) with
      | some j =>
        if '\n' ∈ ((c :: rest).drop 8).take j then extractSmilesCode rest
        else some (((c :: rest).drop 8).take j)
      | none => extractSmilesCode rest
    else extractSmilesCode rest

/-- The re-match `match.content.match(/^(#{1,6})\s+(.+)$/)` (no `m` flag, so
`$` anchors at the end of the whole content), returning level and heading text. -/
def headingRematch (s : Str) : Option (Nat × Str) :=
  let h := (s.takeWhile (· = '#')).length
  if 1 ≤ h ∧ h ≤ 6 then
    let q := s.drop h
    let W := (q.takeWhile isJsSpace).length
    let D := q.drop W
    if D ≠ [] then
      if 1 ≤ W ∧ '\n' ∉ D then some (h, D) else none
    else
      if 2 ≤ W ∧ q.get? (W - 1) ≠ some '\n' then some (h, q.drop (W - 1)) else none
  else none

/-- The test `match.content.match(/^(\$\$|\\\[)/)` used to tell block math from
inline math. -/
def startsBlockDelim (content : Str) : Bool :=
  startsWithL (strL "$$") content || startsWithL (strL "\\[") content

/-- Model of `renderMatchedContent` (RichText.tsx): dispatch on the span type;
SMILES spans with an extractable non-empty code render the SMILES component,
headings re-match and render the native heading, math/env spans are first
validated by `validateLatexInput` and then handed to `renderLatex` with the
block/inline distinction; everything else falls back to a plain span. -/
def renderMatchedContent (m : ContentMatch) (idx : Nat) : JsxChild :=
  match m.type with
  | .smiles =>
    match extractSmilesCode m.content with
    | some code => if code ≠ [] then .smilesNode idx code else .fallbackSpan idx m.content
    | none => .fallbackSpan idx m.content
  | .heading =>
    match headingRematch m.content with
    | some lt => .headingWrap idx lt.1 lt.2
    | none => .fallbackSpan idx m.content
  | .math =>
    if validateLatexInput m.content then
      if startsBlockDelim m.content then .renderLatexBlock idx m.content
      else .renderLatexInline idx m.content
    else .latexErrorDiv idx
  | .env =>
    if validateLatexInput m.content then
      if startsBlockDelim m.content then .renderLatexBlock idx m.content
      else .renderLatexInline idx m.content
    else .latexErrorDiv idx

/-- Model of `renderFallbackContent`. -/
def renderFallbackContent (content : Str) (renderAsMarkdown : Bool) : JsxChild :=
  if renderAsMarkdown then .fallbackMarkdown content else .fallbackPlain content

/-- One iteration of the `blockMatches.forEach` loop of
`renderWithComplexProcessing`: emit the text before the match (when non-blank)
and then the match itself, and advance the cursor to the match end. -/
def complexStep (content : Str) (renderAsMarkdown : Bool)
    (acc : List JsxChild × Nat) (p : Nat × ContentMatch) : List JsxChild × Nat :=
  let elements :=
    if acc.2 < p.2.start then
      let textBefore := sliceOf content acc.2 p.2.start
      if jsTrim textBefore ≠ [] then
        acc.1 ++ [if renderAsMarkdown then .mdFragment textBefore p.1
                  else .textWithSmallVars textBefore (some p.1)]
      else acc.1
    else acc.1
  (elements ++ [renderMatchedContent p.2 p.1], p.2.endIdx)

/-- Model of `renderWithComplexProcessing` (RichText.tsx): parse the content
into spans, keep only block-level spans (block math, SMILES, headings,
environments), interleave them with the markdown-processed text between them,
append the trailing text, and wrap everything in the prose container (with the
fallback rendering when no element was produced). -/
def renderWithComplexProcessing (content : Str) (renderAsMarkdown inline : Bool) : Jsx :=
  let ms := parseContent content
  let blockMatches := ms.filter fun m =>
    match m.type with
    | .math => startsBlockDelim m.content
    | _ => true
  let res := blockMatches.enum.foldl (complexStep content renderAsMarkdown) ([], 0)
  let elements :=
    if res.2 < content.length then
      let remainingText := content.drop res.2
      if jsTrim remainingText ≠ [] then
        res.1 ++ [if renderAsMarkdown then .mdFragment remainingText res.2
                  else .textWithSmallVars remainingText none]
      else res.1
    else res.1
  let children := if elements ≠ [] then elements
    else [renderFallbackContent content renderAsMarkdown]
  if inline then .proseInlineSpan children else .proseDiv children

/-- Model of `renderWithPlaceholders` (RichText.tsx): hand the whole content to
the markdown processor with placeholder substitution, wrapped in the prose
container. -/
def renderWithPlaceholders (content : Str) (inline : Bool) : Jsx :=
  if inline then .proseInlineSpan [.mdFragment content 0]
  else .proseDiv [.mdFragment content 0]

/-- The fast-path guard of `RichText`: environments or block-math delimiters
anywhere force the complex pipeline. -/
def hasComplexStructures (text : Str) : Bool :=
  decide (findTopLevelEnvs text ≠ []) || includesSub text (strL "\\[") ||
  includesSub text (strL "$$")

/-- Model of the `RichText` component body: `none` models the `null` returned
for empty content; content failing `validateMarkdownContent` yields the
invalid-content error element before any span processing; otherwise the
complex pipeline runs when complex structures are present or markdown is
disabled, and the placeholder pipeline runs for the rest. -/
def richText (content : Str) (renderAsMarkdown inline : Bool) : Option Jsx :=
  if content = [] then none
  else if !(validateMarkdownContent content) then some .errorDiv
  else if hasComplexStructures content || !renderAsMarkdown then
    some (renderWithComplexProcessing content renderAsMarkdown inline)
  else some (renderWithPlaceholders content inline)

/-- Validity of one span against the original text: positive width, in bounds,
and content equal to the corresponding substring. -/
def SpanOK (text : Str) (m : ContentMatch) : Prop :=
  m.start < m.endIdx ∧ m.endIdx ≤ text.length ∧ m.content = sliceOf text m.start m.endIdx

/-- Well-formedness of a scanned tag against the full text. -/
def TagOK (text : Str) (t : EnvTag) : Prop :=
  t.env ≠ [] ∧ '}' ∉ t.env ∧ t.length = (tagLit t.kind t.env).length ∧
  t.index + t.length ≤ text.length ∧
  sliceOf text t.index (t.index + t.length) = tagLit t.kind t.env

/-- Well-formedness of an emitted environment span: in bounds, content equal to
the substring, and the content decomposes as `\begin{X} … \end{X}`. -/
def EnvOK (text : Str) (e : LatexEnv) : Prop :=
  e.start < e.endIdx ∧ e.endIdx ≤ text.length ∧
  e.content = sliceOf text e.start e.endIdx ∧
  ∃ X M, X ≠ [] ∧ '}' ∉ X ∧ e.content = tagLit .beginT X ++ M ++ tagLit .endT X

/-- The number of positions in `text` where the begin-tag pattern
`\\begin\{[^}]+\}` matches, i.e. the number of `\begin{…}` occurrences. -/
def countBegins (text : Str) : Nat :=
  ((List.range text.length).filter fun i =>
    match matchTagAt (text.drop i) with
    | some t => t.kind == .beginT
    | none => false).length

theorem startsWithL_eq_true {pat s : Str} (h : startsWithL pat s = true) :
    s.take pat.length = pat := by
  simpa [startsWithL] using h

theorem startsWithL_length_le {pat s : Str} (h : startsWithL pat s = true) :
    pat.length ≤ s.length := by
  have h' := startsWithL_eq_true h
  have : (s.take pat.length).length = pat.length := by rw [h']
  simp [List.length_take] at this
  omega

theorem findSub_le_length {pat s : Str} {j : Nat} (h : findSub pat s = some j) :
    j + pat.length ≤ s.length := by
  induction s generalizing j with
  | nil =>
    by_cases hp : pat = ([] : Str) <;> simp [findSub, hp] at h
    simp [hp, ← h]
  | cons c cs ih =>
    by_cases hs : startsWithL pat (c :: cs) = true
    · have hl := startsWithL_length_le hs
      simp [findSub, hs] at h
      simp [← h]
      simpa using hl
    · simp [findSub, hs] at h
      obtain ⟨j', hj', rfl⟩ := h
      have := ih hj'
      simp
      omega

theorem findSub_spec {pat s : Str} {j : Nat} (h : findSub pat s = some j) :
    (s.drop j).take pat.length = pat := by
  induction s generalizing j with
  | nil =>
    by_cases hp : pat = ([] : Str) <;> simp [findSub, hp] at h
    simp [hp]
  | cons c cs ih =>
    by_cases hs : startsWithL pat (c :: cs) = true
    · simp [findSub, hs] at h
      subst h
      simpa using startsWithL_eq_true hs
    · simp [findSub, hs] at h
      obtain ⟨j', hj', rfl⟩ := h
      simpa using ih hj'

theorem includesSub_of_startsWith_drop {s pat : Str} {k : Nat}
    (h : startsWithL pat (s.drop k) = true) : includesSub s pat = true := by
  induction s generalizing k with
  | nil =>
    have hl := startsWithL_length_le h
    simp at hl
    subst hl
    simp [includesSub, findSub]
  | cons c cs ih =>
    cases k with
    | zero =>
      simp at h
      simp [includesSub, findSub, h]
    | succ k' =>
      simp at h
      have hrec := ih h
      rw [includesSub] at hrec ⊢
      by_cases hs : startsWithL pat (c :: cs) = true
      · simp [findSub, hs]
      · simp only [findSub, hs, Bool.false_eq_true, if_false]
        simpa using hrec

theorem take_take_length (l : Str) (n : Nat) :
    l.take (l.take n).length = l.take n := by
  rcases Nat.le_total n l.length with h | h
  · simp [List.length_take, Nat.min_eq_left h]
  · simp [List.length_take, Nat.min_eq_right h, List.take_of_length_le h]

theorem sliceOf_append_sliceOf {s : Str} {a b c : Nat} (hab : a ≤ b) (hbc : b ≤ c) :
    sliceOf s a b ++ sliceOf s b c = sliceOf s a c := by
  have hsum : c - a = (b - a) + (c - b) := by omega
  have hdd : (s.drop a).drop (b - a) = s.drop b := by
    rw [List.drop_drop]
    congr 1
    omega
  rw [sliceOf, sliceOf, sliceOf, hsum, List.take_add, hdd]

theorem dropWhile_append_of_all {p : Char → Bool} {xs ys : Str}
    (h : ∀ a ∈ xs, p a = true) : (xs ++ ys).dropWhile p = ys.dropWhile p := by
  induction xs with
  | nil => simp
  | cons x xs ih =>
    have hx := h x (by simp)
    simp [List.dropWhile, hx]
    exact ih fun a ha => h a (by simp [ha])

theorem takeWhile_append_all_of_stop {p : Char → Bool} {xs ys : Str}
    (h : ∀ a ∈ xs, p a = true)
    (hstop : ys = [] ∨ ∃ y ys', ys = y :: ys' ∧ p y = false) :
    (xs ++ ys).takeWhile p = xs := by
  induction xs with
  | nil =>
    rcases hstop with rfl | ⟨y, ys', rfl, hy⟩
    · simp
    · simp [List.takeWhile, hy]
  | cons x xs ih =>
    have hx := h x (by simp)
    simp [List.takeWhile, hx]
    exact ih fun a ha => h a (by simp [ha])

theorem mem_insertByKey {key : α → Nat} {x a : α} {l : List α} :
    a ∈ insertByKey key x l ↔ a = x ∨ a ∈ l := by
  induction l with
  | nil => simp [insertByKey]
  | cons y ys ih =>
    by_cases h : key x ≤ key y
    · simp [insertByKey, h]
    · simp [insertByKey, h, ih]
      tauto

theorem mem_sortByKey {key : α → Nat} {a : α} {l : List α} :
    a ∈ sortByKey key l ↔ a ∈ l := by
  induction l with
  | nil => simp [sortByKey]
  | cons x xs ih => simp [sortByKey, mem_insertByKey, ih]

theorem length_insertByKey {key : α → Nat} {x : α} {l : List α} :
    (insertByKey key x l).length = l.length + 1 := by
  induction l with
  | nil => simp [insertByKey]
  | cons y ys ih =>
    by_cases h : key x ≤ key y <;> simp [insertByKey, h, ih]

theorem length_sortByKey {key : α → Nat} {l : List α} :
    (sortByKey key l).length = l.length := by
  induction l with
  | nil => simp [sortByKey]
  | cons x xs ih => simp [sortByKey, length_insertByKey, ih]

theorem pairwise_insertByKey {key : α → Nat} {x : α} {l : List α}
    (h : l.Pairwise (fun a b => key a ≤ key b)) :
    (insertByKey key x l).Pairwise (fun a b => key a ≤ key b) := by
  induction l with
  | nil => simp [insertByKey]
  | cons y ys ih =>
    rcases List.pairwise_cons.mp h with ⟨hy, hys⟩
    by_cases hk : key x ≤ key y
    · rw [insertByKey, if_pos hk]
      refine List.pairwise_cons.mpr ⟨?_, h⟩
      intro b hb
      rcases List.mem_cons.mp hb with rfl | hb
      · omega
      · exact le_trans hk (hy b hb)
    · rw [insertByKey, if_neg hk]
      refine List.pairwise_cons.mpr ⟨?_, ih hys⟩
      intro b hb
      rcases mem_insertByKey.mp hb with rfl | hb
      · omega
      · exact hy b hb

theorem pairwise_sortByKey {key : α → Nat} {l : List α} :
    (sortByKey key l).Pairwise (fun a b => key a ≤ key b) := by
  induction l with
  | nil => simp [sortByKey]
  | cons x xs ih => exact pairwise_insertByKey ih

theorem scanA_mem {m : Str → Option Nat} :
    ∀ (s : Str) (pos skip : Nat), ∀ r ∈ scanA m s pos skip,
      ∃ k n, skip ≤ k ∧ r.index = pos + k ∧ m (s.drop k) = some n ∧ 1 ≤ n ∧
        r.str = (s.drop k).take n ∧ r.str ≠ [] := by
  intro s
  induction s with
  | nil => intro pos skip r hr; simp [scanA] at hr
  | cons c cs ih =>
    intro pos skip r hr
    cases skip with
    | succ sk =>
      rw [scanA] at hr
      obtain ⟨k, n, hk, hi, hm, hn, hs, hne⟩ := ih (pos + 1) sk r hr
      exact ⟨k + 1, n, by omega, by omega, by simpa using hm, hn, by simpa using hs, hne⟩
    | zero =>
      rw [scanA] at hr
      cases hm : m (c :: cs) with
      | none =>
        simp [hm] at hr
        obtain ⟨k, n, hk, hi, hm', hn, hs, hne⟩ := ih (pos + 1) 0 r hr
        exact ⟨k + 1, n, by omega, by omega, by simpa using hm', hn, by simpa using hs, hne⟩
      | some n0 =>
        simp [hm] at hr
        by_cases h1 : 1 ≤ n0
        · rw [if_pos h1] at hr
          rcases List.mem_cons.mp hr with rfl | hr
          · refine ⟨0, n0, Nat.le_refl 0, by simp, by simpa using hm, h1, by simp, ?_⟩
            cases n0 with
            | zero => omega
            | succ n' => simp
          · obtain ⟨k, n, hk, hi, hm', hn, hs, hne⟩ := ih (pos + 1) (n0 - 1) r hr
            exact ⟨k + 1, n, by omega, by omega, by simpa using hm', hn, by simpa using hs, hne⟩
        · rw [if_neg h1] at hr
          obtain ⟨k, n, hk, hi, hm', hn, hs, hne⟩ := ih (pos + 1) 0 r hr
          exact ⟨k + 1, n, by omega, by omega, by simpa using hm', hn, by simpa using hs, hne⟩

theorem scanHeadA_mem {m : Str → Option Nat} :
    ∀ (s : Str) (pos skip : Nat) (atLS : Bool), ∀ r ∈ scanHeadA m s pos skip atLS,
      ∃ k n, skip ≤ k ∧ r.index = pos + k ∧ m (s.drop k) = some n ∧ 1 ≤ n ∧
        r.str = (s.drop k).take n ∧ r.str ≠ [] := by
  intro s
  induction s with
  | nil => intro pos skip atLS r hr; simp [scanHeadA] at hr
  | cons c cs ih =>
    intro pos skip atLS r hr
    cases skip with
    | succ sk =>
      rw [scanHeadA] at hr
      obtain ⟨k, n, hk, hi, hm, hn, hs, hne⟩ := ih (pos + 1) sk _ r hr
      exact ⟨k + 1, n, by omega, by omega, by simpa using hm, hn, by simpa using hs, hne⟩
    | zero =>
      rw [scanHeadA] at hr
      by_cases hLS : atLS = true
      · rw [if_pos hLS] at hr
        cases hm : m (c :: cs) with
        | none =>
          simp [hm] at hr
          obtain ⟨k, n, hk, hi, hm', hn, hs, hne⟩ := ih (pos + 1) 0 _ r hr
          exact ⟨k + 1, n, by omega, by omega, by simpa using hm', hn, by simpa using hs, hne⟩
        | some n0 =>
          simp [hm] at hr
          by_cases h1 : 1 ≤ n0
          · rw [if_pos h1] at hr
            rcases List.mem_cons.mp hr with rfl | hr
            · refine ⟨0, n0, Nat.le_refl 0, by simp, by simpa using hm, h1, by simp, ?_⟩
              cases n0 with
              | zero => omega
              | succ n' => simp
            · obtain ⟨k, n, hk, hi, hm', hn, hs, hne⟩ := ih (pos + 1) (n0 - 1) _ r hr
              exact ⟨k + 1, n, by omega, by omega, by simpa using hm', hn, by simpa using hs, hne⟩
          · rw [if_neg h1] at hr
            obtain ⟨k, n, hk, hi, hm', hn, hs, hne⟩ := ih (pos + 1) 0 _ r hr
            exact ⟨k + 1, n, by omega, by omega, by simpa using hm', hn, by simpa using hs, hne⟩
      · rw [if_neg hLS] at hr
        obtain ⟨k, n, hk, hi, hm', hn, hs, hne⟩ := ih (pos + 1) 0 _ r hr
        exact ⟨k + 1, n, by omega, by omega, by simpa using hm', hn, by simpa using hs, hne⟩

theorem spanOK_of_raw {text content : Str} {start n : Nat} (t : MatchType)
    (hstr : content = (text.drop start).take n) (hne : content ≠ []) :
    SpanOK text ⟨start, start + content.length, content, t⟩ := by
  have hklen : start < text.length := by
    by_contra hk
    push_neg at hk
    have : text.drop start = [] := List.drop_eq_nil_of_le hk
    rw [this] at hstr
    simp at hstr
    exact hne hstr
  have hlen : content.length ≤ text.length - start := by
    have := congrArg List.length hstr
    simp [List.length_take, List.length_drop] at this
    omega
  refine ⟨?_, ?_, ?_⟩
  · have : 0 < content.length := List.length_pos.mpr hne
    simp
    omega
  · simp
    omega
  · show content = sliceOf text start (start + content.length)
    rw [sliceOf]
    have heq : start + content.length - start = content.length := by omega
    rw [heq, hstr]
    exact (take_take_length (text.drop start) n).symm

theorem spanOK_findSmilesMatches {text : Str} :
    ∀ m ∈ findSmilesMatches text, SpanOK text m := by
  intro m hm
  rw [findSmilesMatches] at hm
  obtain ⟨r, hr, rfl⟩ := List.mem_map.mp hm
  obtain ⟨k, n, _, hidx, _, _, hstr, hne⟩ := scanA_mem text 0 0 r hr
  have hidx' : r.index = k := by omega
  exact spanOK_of_raw _ (hidx' ▸ hstr) hne

theorem spanOK_findHeadingMatches {text : Str} :
    ∀ m ∈ findHeadingMatches text, SpanOK text m := by
  intro m hm
  rw [findHeadingMatches] at hm
  obtain ⟨r, hr, rfl⟩ := List.mem_map.mp hm
  obtain ⟨k, n, _, hidx, _, _, hstr, hne⟩ := scanHeadA_mem text 0 0 true r hr
  have hidx' : r.index = k := by omega
  exact spanOK_of_raw _ (hidx' ▸ hstr) hne

theorem spanOK_findBlockMathMatches {text : Str} :
    ∀ m ∈ findBlockMathMatches text, SpanOK text m := by
  intro m hm
  rw [findBlockMathMatches] at hm
  obtain ⟨r, hr, rfl⟩ := List.mem_map.mp hm
  obtain ⟨k, n, _, hidx, _, _, hstr, hne⟩ := scanA_mem text 0 0 r hr
  have hidx' : r.index = k := by omega
  exact spanOK_of_raw _ (hidx' ▸ hstr) hne

theorem mem_addInlineMatches {text : Str} :
    ∀ (rs : List RawMatch) (acc : List ContentMatch) (x : ContentMatch),
      x ∈ addInlineMatches text acc rs →
      x ∈ acc ∨ ∃ r ∈ rs, x = ⟨r.index, r.index + r.str.length, r.str, .math⟩ := by
  intro rs
  induction rs with
  | nil => intro acc x hx; rw [addInlineMatches] at hx; exact Or.inl hx
  | cons r rs ih =>
    intro acc x hx
    rw [addInlineMatches] at hx
    by_cases h1 : overlapsExisting acc r = true
    · rw [if_pos h1] at hx
      rcases ih acc x hx with h | ⟨r', hr', hx'⟩
      · exact Or.inl h
      · exact Or.inr ⟨r', by simp [hr'], hx'⟩
    · rw [if_neg h1] at hx
      by_cases h2 : isInListContext text r.index = true
      · rw [if_pos h2] at hx
        rcases ih acc x hx with h | ⟨r', hr', hx'⟩
        · exact Or.inl h
        · exact Or.inr ⟨r', by simp [hr'], hx'⟩
      · rw [if_neg h2] at hx
        by_cases h3 : shouldSkipMathFragment r.str = true
        · rw [if_pos h3] at hx
          rcases ih acc x hx with h | ⟨r', hr', hx'⟩
          · exact Or.inl h
          · exact Or.inr ⟨r', by simp [hr'], hx'⟩
        · rw [if_neg h3] at hx
          rcases ih _ x hx with h | ⟨r', hr', hx'⟩
          · rcases List.mem_append.mp h with h | h
            · exact Or.inl h
            · simp at h
              exact Or.inr ⟨r, by simp, h⟩
          · exact Or.inr ⟨r', by simp [hr'], hx'⟩

theorem spanOK_addInlineMatches {text : Str} {acc : List ContentMatch}
    (hacc : ∀ m ∈ acc, SpanOK text m) :
    ∀ m ∈ addInlineMatches text acc (inlineCandidates text), SpanOK text m := by
  intro m hm
  rcases mem_addInlineMatches _ _ m hm with h | ⟨r, hr, rfl⟩
  · exact hacc m h
  · obtain ⟨k, n, _, hidx, _, _, hstr, hne⟩ := scanA_mem text 0 0 r hr
    have hidx' : r.index = k := by omega
    exact spanOK_of_raw _ (hidx' ▸ hstr) hne

theorem tagLit_length_pos (k : TagKind) (name : Str) : 1 ≤ (tagLit k name).length := by
  cases k <;> simp [tagLit] <;> omega

theorem matchTagAt_spec {s : Str} {t : EnvTag} (h : matchTagAt s = some t) :
    t.index = 0 ∧ t.env ≠ [] ∧ '}' ∉ t.env ∧ t.length = (tagLit t.kind t.env).length ∧
      t.length ≤ s.length ∧ s.take t.length = tagLit t.kind t.env := by
  rw [matchTagAt] at h
  by_cases hb : startsWithL (strL "\\begin\x7b") s = true
  · rw [if_pos hb] at h
    set rest := s.drop 7 with hrest
    set name := rest.takeWhile (fun c => c ≠ '}') with hname
    by_cases hc : name ≠ [] ∧ rest.get? name.length = some '}'
    · rw [if_pos hc] at h
      obtain ⟨hne, hget⟩ := hc
      injection h with h
      subst h
      have h7 : s.take 7 = strL "\\begin\x7b" := by
        have := startsWithL_eq_true hb
        simpa using this
      have hs7 : 7 ≤ s.length := by
        have := startsWithL_length_le hb
        simpa using this
      have hnlt : name.length < rest.length := by
        rcases List.get?_eq_some.mp hget with ⟨hlt, _⟩
        exact hlt
      have hmem : '}' ∉ name := by
        intro hmem
        have := List.mem_takeWhile_imp (p := fun c => c ≠ '}') (hname ▸ hmem)
        simp at this
      have htk : rest.take name.length = name :=
        (List.prefix_iff_eq_take.mp (hname ▸ List.takeWhile_prefix _)).symm
      have htk1 : rest.take (name.length + 1) = name ++ ['}'] := by
        rw [List.take_succ, htk, ← List.get?_eq_getElem?, hget]
        rfl
      refine ⟨rfl, hne, hmem, ?_, ?_, ?_⟩
      · show 7 + name.length + 1 = (tagLit .beginT name).length
        have h7l : (strL "\\begin\x7b").length = 7 := rfl
        simp [tagLit, h7l]
        omega
      · show 7 + name.length + 1 ≤ s.length
        simp only [hrest, List.length_drop] at hnlt
        omega
      · show s.take (7 + name.length + 1) = tagLit .beginT name
        have : 7 + name.length + 1 = 7 + (name.length + 1) := by omega
        rw [this, List.take_add, h7, htk1]
        simp [tagLit]
    · rw [if_neg hc] at h
      exact absurd h (by simp)
  · rw [if_neg hb] at h
    by_cases he : startsWithL (strL "\\end\x7b") s = true
    · rw [if_pos he] at h
      set rest := s.drop 5 with hrest
      set name := rest.takeWhile (fun c => c ≠ '}') with hname
      by_cases hc : name ≠ [] ∧ rest.get? name.length = some '}'
      · rw [if_pos hc] at h
        obtain ⟨hne, hget⟩ := hc
        injection h with h
        subst h
        have h5 : s.take 5 = strL "\\end\x7b" := by
          have := startsWithL_eq_true he
          simpa using this
        have hs5 : 5 ≤ s.length := by
          have := startsWithL_length_le he
          simpa using this
        have hnlt : name.length < rest.length := by
          rcases List.get?_eq_some.mp hget with ⟨hlt, _⟩
          exact hlt
        have hmem : '}' ∉ name := by
          intro hmem
          have := List.mem_takeWhile_imp (p := fun c => c ≠ '}') (hname ▸ hmem)
          simp at this
        have htk : rest.take name.length = name :=
          (List.prefix_iff_eq_take.mp (hname ▸ List.takeWhile_prefix _)).symm
        have htk1 : rest.take (name.length + 1) = name ++ ['}'] := by
          rw [List.take_succ, htk, ← List.get?_eq_getElem?, hget]
          rfl
        refine ⟨rfl, hne, hmem, ?_, ?_, ?_⟩
        · show 5 + name.length + 1 = (tagLit .endT name).length
          have h5l : (strL "\\end\x7b").length = 5 := rfl
          simp [tagLit, h5l]
          omega
        · show 5 + name.length + 1 ≤ s.length
          simp only [hrest, List.length_drop] at hnlt
          omega
        · show s.take (5 + name.length + 1) = tagLit .endT name
          have : 5 + name.length + 1 = 5 + (name.length + 1) := by omega
          rw [this, List.take_add, h5, htk1]
          simp [tagLit]
      · rw [if_neg hc] at h
        exact absurd h (by simp)
    · rw [if_neg he] at h
      exact absurd h (by simp)

theorem matchTagAt_length_pos {s : Str} {t : EnvTag} (h : matchTagAt s = some t) :
    1 ≤ t.length := by
  have := (matchTagAt_spec h).2.2.2.1
  rw [this]
  exact tagLit_length_pos _ _

theorem scanTagsA_mem_spec :
    ∀ (s : Str) (pos skip : Nat), ∀ t ∈ scanTagsA s pos skip,
      ∃ k, skip ≤ k ∧ t.index = pos + k ∧
        matchTagAt (s.drop k) = some ⟨t.kind, t.env, 0, t.length⟩ := by
  intro s
  induction s with
  | nil => intro pos skip t ht; simp [scanTagsA] at ht
  | cons c cs ih =>
    intro pos skip t ht
    cases skip with
    | succ sk =>
      rw [scanTagsA] at ht
      obtain ⟨k, hk, hi, hm⟩ := ih (pos + 1) sk t ht
      exact ⟨k + 1, by omega, by omega, by simpa using hm⟩
    | zero =>
      rw [scanTagsA] at ht
      cases hm : matchTagAt (c :: cs) with
      | none =>
        simp [hm] at ht
        obtain ⟨k, hk, hi, hm'⟩ := ih (pos + 1) 0 t ht
        exact ⟨k + 1, by omega, by omega, by simpa using hm'⟩
      | some t0 =>
        simp [hm] at ht
        rcases ht with rfl | ht
        · refine ⟨0, Nat.le_refl 0, by simp, ?_⟩
          simp only [List.drop_zero]
          rw [hm]
          congr 1
          have h0 := (matchTagAt_spec hm).1
          cases t0
          simp_all
        · obtain ⟨k, hk, hi, hm'⟩ := ih (pos + 1) (t0.length - 1) t ht
          exact ⟨k + 1, by omega, by omega, by simpa using hm'⟩

theorem scanTagsA_lb :
    ∀ (s : Str) (pos skip : Nat), ∀ t ∈ scanTagsA s pos skip, pos + skip ≤ t.index := by
  intro s pos skip t ht
  obtain ⟨k, hk, hi, _⟩ := scanTagsA_mem_spec s pos skip t ht
  omega

theorem scanTagsA_pairwise :
    ∀ (s : Str) (pos skip : Nat),
      (scanTagsA s pos skip).Pairwise (fun a b => a.index + a.length ≤ b.index) := by
  intro s
  induction s with
  | nil => intro pos skip; simp [scanTagsA]
  | cons c cs ih =>
    intro pos skip
    cases skip with
    | succ sk => rw [scanTagsA]; exact ih (pos + 1) sk
    | zero =>
      rw [scanTagsA]
      cases hm : matchTagAt (c :: cs) with
      | none => exact ih (pos + 1) 0
      | some t0 =>
        simp only
        refine List.pairwise_cons.mpr ⟨?_, ih (pos + 1) (t0.length - 1)⟩
        intro b hb
        have hlb := scanTagsA_lb cs (pos + 1) (t0.length - 1) b hb
        have hpos := matchTagAt_length_pos hm
        simp
        omega

theorem scanTags_TagOK {text : Str} : ∀ t ∈ scanTags text, TagOK text t := by
  intro t ht
  obtain ⟨k, _, hi, hm⟩ := scanTagsA_mem_spec text 0 0 t ht
  have hk : t.index = k := by omega
  obtain ⟨_, hne, hbr, hlen, hle, htake⟩ := matchTagAt_spec hm
  dsimp only at hne hbr hlen hle htake
  rw [List.length_drop] at hle
  have hpos : 1 ≤ t.length := by
    rw [hlen]; exact tagLit_length_pos _ _
  refine ⟨hne, hbr, hlen, ?_, ?_⟩
  · omega
  · rw [sliceOf, hk]
    have heq : k + t.length - k = t.length := by omega
    rw [heq]
    exact htake

theorem scanTags_pairwise {text : Str} :
    (scanTags text).Pairwise (fun a b => a.index + a.length ≤ b.index) :=
  scanTagsA_pairwise text 0 0

theorem processTags_nil (text : Str) (stack : List EnvTag) (envs : List LatexEnv) :
    processTags text [] stack envs = envs := rfl

theorem processTags_cons (text : Str) (t : EnvTag) (rest stack : List EnvTag)
    (envs : List LatexEnv) :
    processTags text (t :: rest) stack envs =
      match t.kind with
      | .beginT => processTags text rest (t :: stack) envs
      | .endT =>
        match stack with
        | [] => processTags text rest [] envs
        | top :: stack' =>
          if top.env = t.env then
            if stack' = [] then
              processTags text rest stack'
                (envs ++ [⟨top.index, t.index + t.length,
                  sliceOf text top.index (t.index + t.length)⟩])
            else processTags text rest stack' envs
          else processTags text rest (top :: stack') envs := rfl

theorem processTags_EnvOK {text : Str} :
    ∀ (tags stack envs : List _),
      (∀ t ∈ tags, TagOK text t) →
      tags.Pairwise (fun a b => a.index + a.length ≤ b.index) →
      (∀ s ∈ stack, TagOK text s ∧ s.kind = .beginT) →
      (∀ s ∈ stack, ∀ t ∈ tags, s.index + s.length ≤ t.index) →
      (∀ e ∈ envs, EnvOK text e) →
      ∀ e ∈ processTags text tags stack envs, EnvOK text e := by
  intro tags
  induction tags with
  | nil =>
    intro stack envs _ _ _ _ henv e he
    rw [processTags_nil] at he
    exact henv e he
  | cons t rest ih =>
    intro stack envs htags hpw hstack hso henv e he
    have htOK : TagOK text t := htags t (by simp)
    have htags' : ∀ u ∈ rest, TagOK text u := fun u hu => htags u (by simp [hu])
    obtain ⟨hthead, hpw'⟩ := List.pairwise_cons.mp hpw
    rw [processTags_cons] at he
    cases hkind : t.kind with
    | beginT =>
      rw [hkind] at he
      dsimp only at he
      refine ih (t :: stack) envs htags' hpw' ?_ ?_ henv e he
      · intro s hs
        rcases List.mem_cons.mp hs with rfl | hs
        · exact ⟨htOK, hkind⟩
        · exact hstack s hs
      · intro s hs u hu
        rcases List.mem_cons.mp hs with rfl | hs
        · exact hthead u hu
        · exact hso s hs u (by simp [hu])
    | endT =>
      rw [hkind] at he
      dsimp only at he
      cases stack with
      | nil => exact ih [] envs htags' hpw' (by simp) (by simp) henv e he
      | cons top stack' =>
        dsimp only at he
        by_cases hname : top.env = t.env
        · rw [if_pos hname] at he
          by_cases hst : stack' = ([] : List EnvTag)
          · rw [if_pos hst] at he
            refine ih stack' _ htags' hpw' ?_ ?_ ?_ e he
            · intro s hs; exact hstack s (by simp [hs])
            · intro s hs u hu; exact hso s (by simp [hs]) u (by simp [hu])
            · intro e' he'
              rcases List.mem_append.mp he' with he' | he'
              · exact henv e' he'
              · simp at he'
                subst he'
                obtain ⟨⟨tne, tbr, tlen, tle, tslice⟩, tkind⟩ := hstack top (by simp)
                obtain ⟨une, ubr, ulen, ule, uslice⟩ := htOK
                have horder : top.index + top.length ≤ t.index := hso top (by simp) t (by simp)
                have htpos : 1 ≤ top.length := by rw [tlen]; exact tagLit_length_pos _ _
                have hupos : 1 ≤ t.length := by rw [ulen]; exact tagLit_length_pos _ _
                refine ⟨by simp; omega, by simp; omega, by simp, ?_⟩
                refine ⟨top.env, sliceOf text (top.index + top.length) t.index, tne, tbr, ?_⟩
                show sliceOf text top.index (t.index + t.length) = _
                rw [← sliceOf_append_sliceOf (a := top.index) (b := top.index + top.length)
                      (c := t.index + t.length) (by omega) (by omega),
                    ← sliceOf_append_sliceOf (a := top.index + top.length) (b := t.index)
                      (c := t.index + t.length) (by omega) (by omega)]
                rw [tslice, tkind, ← List.append_assoc]
                congr 1
                rw [uslice, hkind, hname]
          · rw [if_neg hst] at he
            refine ih stack' envs htags' hpw' ?_ ?_ henv e he
            · intro s hs; exact hstack s (by simp [hs])
            · intro s hs u hu; exact hso s (by simp [hs]) u (by simp [hu])
        · rw [if_neg hname] at he
          refine ih (top :: stack') envs htags' hpw' hstack ?_ henv e he
          intro s hs u hu
          exact hso s hs u (by simp [hu])

theorem findTopLevelEnvs_EnvOK {text : Str} :
    ∀ e ∈ findTopLevelEnvs text, EnvOK text e := by
  intro e he
  rw [findTopLevelEnvs] at he
  have he' := mem_sortByKey.mp he
  exact processTags_EnvOK (scanTags text) [] [] scanTags_TagOK scanTags_pairwise
    (by simp) (by simp) (by simp) e he'

theorem isLatexEnvironmentM_of_decomp {X M : Str} (hne : X ≠ []) (hbr : '}' ∉ X) :
    (isLatexEnvironmentM (tagLit .beginT X ++ M ++ tagLit .endT X)).isSome = true := by
  set frag := tagLit .beginT X ++ M ++ tagLit .endT X with hfrag
  have hsplit : frag = strL "\\begin\x7b" ++ (X ++ '}' :: (M ++ tagLit .endT X)) := by
    rw [hfrag, tagLit]
    simp
  have hstart : startsWithL (strL "\\begin\x7b") frag = true := by
    have htk : frag.take (strL "\\begin\x7b").length = strL "\\begin\x7b" := by
      rw [hsplit]
      exact List.take_left _ _
    simpa [startsWithL] using htk
  have hdrop : frag.drop 7 = X ++ '}' :: (M ++ tagLit .endT X) := by
    rw [hsplit]
    rw [show (7 : Nat) = (strL "\\begin\x7b").length from rfl, List.drop_left]
  have hname : (frag.drop 7).takeWhile (fun c => c ≠ '}') = X := by
    rw [hdrop]
    refine takeWhile_append_all_of_stop ?_ (Or.inr ⟨'}', _, rfl, by simp⟩)
    intro a ha
    simp
    intro hc
    exact hbr (hc ▸ ha)
  have hget : (frag.drop 7).get? X.length = some '}' := by
    rw [hdrop, List.get?_append_right (Nat.le_refl _)]
    simp
  have hafter : (frag.drop 7).drop (X.length + 1) = M ++ tagLit .endT X := by
    rw [hdrop]
    have hre : X ++ '}' :: (M ++ tagLit .endT X)
        = (X ++ ['}']) ++ (M ++ tagLit .endT X) := by
      simp
    rw [hre, show X.length + 1 = (X ++ ['}']).length by simp, List.drop_left]
  have hendsW : endsWithL (strL "\\end\x7b" ++ X ++ ['}']) (M ++ tagLit .endT X) = true := by
    have hlit : tagLit .endT X = strL "\\end\x7b" ++ X ++ ['}'] := rfl
    rw [hlit, endsWithL, decide_eq_true_eq]
    refine ⟨by simp, ?_⟩
    have hlen : (M ++ (strL "\\end\x7b" ++ X ++ ['}'])).length
        - (strL "\\end\x7b" ++ X ++ ['}']).length = M.length := by
      simp
    rw [hlen, show M.length = M.length from rfl]
    exact List.drop_left _ _
  have hendsW2 : endsWithL (strL "\\end\x7b" ++ (X ++ ['}'])) (M ++ tagLit .endT X) = true := by
    rw [← List.append_assoc]
    exact hendsW
  simp only [isLatexEnvironmentM, hstart, if_true, hname, hget, hafter]
  simp [hne, hendsW2]

theorem processTags_length_le {text : Str} :
    ∀ (tags stack : List EnvTag) (envs : List LatexEnv),
      (processTags text tags stack envs).length ≤
        envs.length + stack.length + (tags.filter fun t => t.kind == .beginT).length := by
  intro tags
  induction tags with
  | nil =>
    intro stack envs
    rw [processTags_nil]
    simp
  | cons t rest ih =>
    intro stack envs
    rw [processTags_cons]
    cases hkind : t.kind with
    | beginT =>
      dsimp only
      have hf : (t :: rest).filter (fun t => t.kind == TagKind.beginT) =
          t :: rest.filter (fun t => t.kind == TagKind.beginT) := by
        rw [List.filter_cons, hkind]
        rfl
      rw [hf]
      have := ih (t :: stack) envs
      simp at this ⊢
      omega
    | endT =>
      dsimp only
      have hf : (t :: rest).filter (fun t => t.kind == TagKind.beginT) =
          rest.filter (fun t => t.kind == TagKind.beginT) := by
        rw [List.filter_cons, hkind]
        rfl
      rw [hf]
      cases stack with
      | nil =>
        have := ih [] envs
        simp at this ⊢
        omega
      | cons top stack' =>
        dsimp only
        by_cases hname : top.env = t.env
        · rw [if_pos hname]
          by_cases hst : stack' = ([] : List EnvTag)
          · rw [if_pos hst]
            have := ih stack' (envs ++ [⟨top.index, t.index + t.length,
              sliceOf text top.index (t.index + t.length)⟩])
            simp at this ⊢
            omega
          · rw [if_neg hst]
            have := ih stack' envs
            simp at this ⊢
            omega
        · rw [if_neg hname]
          have := ih (top :: stack') envs
          simp at this ⊢
          omega

theorem beginTags_le_countBegins {text : Str} :
    ((scanTags text).filter fun t => t.kind == .beginT).length ≤ countBegins text := by
  set l := (scanTags text).filter (fun t => t.kind == .beginT) with hl
  have hpwf : l.Pairwise (fun a b => a.index + a.length ≤ b.index) :=
    scanTags_pairwise.filter _
  have hpwlt : (l.map EnvTag.index).Pairwise (· < ·) := by
    rw [List.pairwise_map]
    refine hpwf.imp_of_mem ?_
    intro a b ha _ hab
    have haOK : TagOK text a := scanTags_TagOK a (List.mem_of_mem_filter ha)
    have : 1 ≤ a.length := by
      rw [haOK.2.2.1]
      exact tagLit_length_pos _ _
    omega
  have hnd : (l.map EnvTag.index).Nodup := hpwlt.imp Nat.ne_of_lt
  have hsub : (l.map EnvTag.index) ⊆ (List.range text.length).filter fun i =>
      match matchTagAt (text.drop i) with
      | some t => t.kind == .beginT
      | none => false := by
    intro i hi
    obtain ⟨t, ht, rfl⟩ := List.mem_map.mp hi
    have htf := List.mem_filter.mp (hl ▸ ht)
    obtain ⟨hts, htk⟩ := htf
    obtain ⟨k, _, hidx, hm⟩ := scanTagsA_mem_spec text 0 0 t hts
    have hk : t.index = k := by omega
    have htOK : TagOK text t := scanTags_TagOK t hts
    have hpos : 1 ≤ t.length := by
      rw [htOK.2.2.1]
      exact tagLit_length_pos _ _
    refine List.mem_filter.mpr ⟨List.mem_range.mpr ?_, ?_⟩
    · have := htOK.2.2.2.1
      omega
    · rw [← hk] at hm
      rw [hm]
      simpa using htk
  calc l.length = (l.map EnvTag.index).length := by simp
    _ ≤ _ := (hnd.subperm hsub).length_le

/-- Claim C7 core: the span count is bounded by the number of `\begin{…}`
occurrences, and every emitted span is a syntactically complete environment. -/
theorem findTopLevelEnvs_count_and_complete (text : Str) :
    (findTopLevelEnvs text).length ≤ countBegins text ∧
    ∀ e ∈ findTopLevelEnvs text, (isLatexEnvironmentM e.content).isSome = true := by
  constructor
  · rw [findTopLevelEnvs, length_sortByKey]
    calc (processTags text (scanTags text) [] []).length
        ≤ 0 + 0 + ((scanTags text).filter fun t => t.kind == .beginT).length :=
          processTags_length_le (scanTags text) [] []
      _ ≤ countBegins text := by
          simpa using beginTags_le_countBegins
  · intro e he
    obtain ⟨_, _, _, X, M, hne, hbr, hdec⟩ := findTopLevelEnvs_EnvOK e he
    rw [hdec]
    exact isLatexEnvironmentM_of_decomp hne hbr

theorem enumFrom_fst_ge {α : Type} {l : List α} :
    ∀ (n : Nat), ∀ p ∈ List.enumFrom n l, n ≤ p.1 := by
  induction l with
  | nil => intro n p hp; simp [List.enumFrom] at hp
  | cons x xs ih =>
    intro n p hp
    rw [List.enumFrom] at hp
    rcases List.mem_cons.mp hp with rfl | hp
    · simp
    · have := ih (n + 1) p hp
      omega

theorem enumFrom_pairwise_fst_lt {α : Type} {l : List α} :
    ∀ (n : Nat), (List.enumFrom n l).Pairwise fun p q => p.1 < q.1 := by
  induction l with
  | nil => intro n; simp [List.enumFrom]
  | cons x xs ih =>
    intro n
    rw [List.enumFrom]
    refine List.pairwise_cons.mpr ⟨?_, ih (n + 1)⟩
    intro q hq
    have := enumFrom_fst_ge (n + 1) q hq
    simp
    omega

theorem enum_pairwise_fst_lt {α : Type} {l : List α} :
    l.enum.Pairwise fun p q => p.1 < q.1 :=
  enumFrom_pairwise_fst_lt 0

theorem mem_filterNestedMatches {l : List ContentMatch} {m : ContentMatch}
    (h : m ∈ filterNestedMatches l) : m ∈ l := by
  rw [filterNestedMatches] at h
  obtain ⟨p, hp, rfl⟩ := List.mem_map.mp h
  have hsub : p ∈ (sortByKey ContentMatch.start l).enum := List.mem_of_mem_filter hp
  have hmem : p.2 ∈ (sortByKey ContentMatch.start l).enum.map Prod.snd :=
    List.mem_map_of_mem Prod.snd hsub
  rw [List.enum_map_snd] at hmem
  exact mem_sortByKey.mp hmem

theorem filterNestedMatches_sorted (l : List ContentMatch) :
    (filterNestedMatches l).Pairwise fun a b => a.start ≤ b.start := by
  rw [filterNestedMatches]
  have hsl : List.Sublist
      ((sortByKey ContentMatch.start l).enum.filter fun p =>
        !((sortByKey ContentMatch.start l).enum.any fun q => q.1 != p.1 && isNestedIn p.2 q.2))
      ((sortByKey ContentMatch.start l).enum) := List.filter_sublist _
  have hmap := hsl.map Prod.snd
  have henum : (sortByKey ContentMatch.start l).enum.map Prod.snd
      = sortByKey ContentMatch.start l := List.enum_map_snd _
  rw [henum] at hmap
  exact (@pairwise_sortByKey _ ContentMatch.start l).sublist hmap

theorem filterNestedMatches_not_nested_of_mem {l : List ContentMatch}
    {p q : Nat × ContentMatch}
    (hp : p ∈ (sortByKey ContentMatch.start l).enum.filter fun p =>
      !((sortByKey ContentMatch.start l).enum.any fun q => q.1 != p.1 && isNestedIn p.2 q.2))
    (hq : q ∈ (sortByKey ContentMatch.start l).enum) (hne : q.1 ≠ p.1) :
    isNestedIn p.2 q.2 = false := by
  have hPp := (List.mem_filter.mp hp).2
  rw [Bool.not_eq_true'] at hPp
  cases hnest : isNestedIn p.2 q.2
  · rfl
  · exfalso
    have hany : ((sortByKey ContentMatch.start l).enum.any fun q' =>
        q'.1 != p.1 && isNestedIn p.2 q'.2) = true :=
      List.any_eq_true.mpr ⟨q, hq, by simp [hnest, bne_iff_ne, hne]⟩
    rw [hany] at hPp
    simp at hPp

theorem filterNestedMatches_containment_free (l : List ContentMatch) :
    (filterNestedMatches l).Pairwise fun a b =>
      isNestedIn a b = false ∧ isNestedIn b a = false := by
  rw [filterNestedMatches]
  set en := (sortByKey ContentMatch.start l).enum with hen
  set F := en.filter fun p => !(en.any fun q => q.1 != p.1 && isNestedIn p.2 q.2) with hF
  have hsl : List.Sublist F en := List.filter_sublist _
  have hpwF : F.Pairwise fun p q => p.1 < q.1 :=
    (enum_pairwise_fst_lt (l := sortByKey ContentMatch.start l)).sublist hsl
  refine List.pairwise_map.mpr ?_
  refine hpwF.imp_of_mem ?_
  intro p q hpF hqF hlt
  have hpen : p ∈ en := hsl.subset hpF
  have hqen : q ∈ en := hsl.subset hqF
  constructor
  · exact filterNestedMatches_not_nested_of_mem (hF ▸ hpF) hqen (by omega)
  · exact filterNestedMatches_not_nested_of_mem (hF ▸ hqF) hpen (by omega)

theorem parseContent_SpanOK {text : Str} : ∀ m ∈ parseContent text, SpanOK text m := by
  intro m hm
  rw [parseContent] at hm
  have hm5 := mem_filterNestedMatches hm
  rcases List.mem_append.mp hm5 with hm4 | henv
  · have hm3OK : ∀ x ∈ findSmilesMatches text ++ findHeadingMatches text ++
        findBlockMathMatches text, SpanOK text x := by
      intro x hx
      rcases List.mem_append.mp hx with hx | hx
      · rcases List.mem_append.mp hx with hx | hx
        · exact spanOK_findSmilesMatches x hx
        · exact spanOK_findHeadingMatches x hx
      · exact spanOK_findBlockMathMatches x hx
    exact spanOK_addInlineMatches hm3OK m hm4
  · obtain ⟨e, he, rfl⟩ := List.mem_map.mp henv
    obtain ⟨h1, h2, h3, _⟩ := findTopLevelEnvs_EnvOK e he
    exact ⟨h1, h2, h3⟩

theorem splitLatexAux_flatten : ∀ (fuel : Nat) (acc s : Str),
    (splitLatexAux fuel acc s).flatten = acc.reverse ++ s := by
  intro fuel
  induction fuel with
  | zero => intro acc s; cases s <;> simp [splitLatexAux]
  | succ f ih =>
    intro acc s
    cases s with
    | nil => simp [splitLatexAux]
    | cons c cs =>
      rw [splitLatexAux]
      cases hm : matchDelimLen (c :: cs) with
      | none =>
        rw [ih]
        simp
      | some n =>
        dsimp only
        by_cases h1 : 1 ≤ n
        · rw [if_pos h1]
          rw [List.flatten_cons, List.flatten_cons, ih]
          simp [List.take_append_drop]
        · rw [if_neg h1, ih]
          simp

/-- Claim C9 core: the parts of `splitLatex`, concatenated, reproduce the
original string. -/
theorem splitLatex_flatten (s : Str) : (splitLatex s).flatten = s := by
  rw [splitLatex, splitLatexAux_flatten]
  simp

theorem not_isWordChar_of_isJsSpace {c : Char} (h : isJsSpace c = true) :
    isWordChar c = false := by
  simp only [isJsSpace, Bool.or_eq_true, beq_iff_eq, or_assoc] at h
  rcases h with h | h | h | h | h | h | h | h <;> subst h <;> decide

theorem isJsSpace_false_of_isWordChar {c : Char} (h : isWordChar c = true) :
    isJsSpace c = false := by
  cases hs : isJsSpace c
  · rfl
  · rw [not_isWordChar_of_isJsSpace hs] at h
    exact absurd h (by simp)

theorem startsWithL_get {pat s : Str} (h : startsWithL pat s = true) {i : Nat}
    (hi : i < pat.length) : s.get? i = pat.get? i := by
  have he := startsWithL_eq_true h
  calc s.get? i = (s.take pat.length).get? i := (List.get?_take hi).symm
    _ = pat.get? i := by rw [he]

theorem matchTagAt_none_of_head {c : Char} {cs : Str} (h : c ≠ '\\') :
    matchTagAt (c :: cs) = none := by
  have h1 : startsWithL (strL "\\begin\x7b") (c :: cs) = false := by
    cases hsw : startsWithL (strL "\\begin\x7b") (c :: cs)
    · rfl
    · have hval := startsWithL_get hsw (i := 0) (by decide)
      rw [show (strL "\\begin\x7b").get? 0 = some '\\' from rfl] at hval
      simp at hval
      exact absurd hval h
  have h2 : startsWithL (strL "\\end\x7b") (c :: cs) = false := by
    cases hsw : startsWithL (strL "\\end\x7b") (c :: cs)
    · rfl
    · have hval := startsWithL_get hsw (i := 0) (by decide)
      rw [show (strL "\\end\x7b").get? 0 = some '\\' from rfl] at hval
      simp at hval
      exact absurd hval h
  rw [matchTagAt]
  simp [h1, h2]

theorem takeWhile_ne_brace_append {X R : Str} (hbr : '}' ∉ X) :
    (X ++ '}' :: R).takeWhile (fun c => c ≠ '}') = X := by
  refine takeWhile_append_all_of_stop ?_ (Or.inr ⟨'}', R, rfl, by simp⟩)
  intro a ha
  simp
  intro hc
  exact hbr (hc ▸ ha)

theorem matchTagAt_lit (k : TagKind) (X r : Str) (hne : X ≠ []) (hbr : '}' ∉ X) :
    matchTagAt (tagLit k X ++ r) = some ⟨k, X, 0, (tagLit k X).length⟩ := by
  cases k with
  | beginT =>
    have hseq : tagLit .beginT X ++ r = strL "\\begin\x7b" ++ (X ++ '}' :: r) := by
      simp [tagLit]
    have hstart : startsWithL (strL "\\begin\x7b") (tagLit .beginT X ++ r) = true := by
      have htk : (tagLit .beginT X ++ r).take (strL "\\begin\x7b").length = strL "\\begin\x7b" := by
        rw [hseq]
        exact List.take_left _ _
      simpa [startsWithL] using htk
    have hdrop : (tagLit .beginT X ++ r).drop 7 = X ++ '}' :: r := by
      rw [hseq, show (7 : Nat) = (strL "\\begin\x7b").length from rfl, List.drop_left]
    have hname : ((tagLit .beginT X ++ r).drop 7).takeWhile (fun c => c ≠ '}') = X := by
      rw [hdrop]
      exact takeWhile_ne_brace_append hbr
    have hget : ((tagLit .beginT X ++ r).drop 7).get? X.length = some '}' := by
      rw [hdrop, List.get?_append_right (Nat.le_refl _)]
      simp
    rw [matchTagAt, if_pos hstart]
    simp only [hname]
    rw [if_pos ⟨hne, hget⟩]
    have hlen : (tagLit .beginT X).length = 7 + X.length + 1 := by
      simp [tagLit]
      have : (strL "\\begin\x7b").length = 7 := rfl
      omega
    rw [hlen]
  | endT =>
    have hb : startsWithL (strL "\\begin\x7b") (tagLit .endT X ++ r) = false := by
      cases hsw : startsWithL (strL "\\begin\x7b") (tagLit .endT X ++ r)
      · rfl
      · have hg := startsWithL_get hsw (i := 1) (by decide)
        rw [show (tagLit .endT X ++ r).get? 1 = some 'e' from rfl,
          show (strL "\\begin\x7b").get? 1 = some 'b' from rfl] at hg
        simp at hg
    have hseq : tagLit .endT X ++ r = strL "\\end\x7b" ++ (X ++ '}' :: r) := by
      simp [tagLit]
    have hstart : startsWithL (strL "\\end\x7b") (tagLit .endT X ++ r) = true := by
      have htk : (tagLit .endT X ++ r).take (strL "\\end\x7b").length = strL "\\end\x7b" := by
        rw [hseq]
        exact List.take_left _ _
      simpa [startsWithL] using htk
    have hdrop : (tagLit .endT X ++ r).drop 5 = X ++ '}' :: r := by
      rw [hseq, show (5 : Nat) = (strL "\\end\x7b").length from rfl, List.drop_left]
    have hname : ((tagLit .endT X ++ r).drop 5).takeWhile (fun c => c ≠ '}') = X := by
      rw [hdrop]
      exact takeWhile_ne_brace_append hbr
    have hget : ((tagLit .endT X ++ r).drop 5).get? X.length = some '}' := by
      rw [hdrop, List.get?_append_right (Nat.le_refl _)]
      simp
    rw [matchTagAt, if_neg (by simp [hb]), if_pos hstart]
    simp only [hname]
    rw [if_pos ⟨hne, hget⟩]
    have hlen : (tagLit .endT X).length = 5 + X.length + 1 := by
      simp [tagLit]
      have : (strL "\\end\x7b").length = 5 := rfl
      omega
    rw [hlen]

theorem scanTagsA_nil_eq (pos skip : Nat) : scanTagsA [] pos skip = [] := rfl

theorem scanTagsA_skip_eq (c : Char) (cs : Str) (pos skip : Nat) :
    scanTagsA (c :: cs) pos (skip + 1) = scanTagsA cs (pos + 1) skip := rfl

theorem scanTagsA_zero_eq (c : Char) (cs : Str) (pos : Nat) :
    scanTagsA (c :: cs) pos 0 =
      match matchTagAt (c :: cs) with
      | some t => { t with index := pos } :: scanTagsA cs (pos + 1) (t.length - 1)
      | none => scanTagsA cs (pos + 1) 0 := rfl

theorem scanTagsA_skip_append : ∀ (xs r : Str) (pos : Nat),
    scanTagsA (xs ++ r) pos xs.length = scanTagsA r (pos + xs.length) 0 := by
  intro xs
  induction xs with
  | nil => intro r pos; simp
  | cons x xs ih =>
    intro r pos
    rw [List.cons_append, show (x :: xs).length = xs.length + 1 from rfl,
      scanTagsA_skip_eq, ih]
    congr 1
    omega

theorem scanTagsA_nobs : ∀ (xs : Str), '\\' ∉ xs → ∀ (r : Str) (pos : Nat),
    scanTagsA (xs ++ r) pos 0 = scanTagsA r (pos + xs.length) 0 := by
  intro xs
  induction xs with
  | nil => intro _ r pos; simp
  | cons x xs ih =>
    intro hmem r pos
    have hx : x ≠ '\\' := by
      intro he
      exact hmem (by simp [he])
    have hxs : '\\' ∉ xs := fun hc => hmem (by simp [hc])
    rw [List.cons_append, scanTagsA_zero_eq, matchTagAt_none_of_head hx, ih hxs]
    simp
    congr 1
    omega

theorem scanTagsA_lit_cons (k : TagKind) (X r : Str) (pos : Nat)
    (hne : X ≠ []) (hbr : '}' ∉ X) :
    scanTagsA (tagLit k X ++ r) pos 0 =
      ⟨k, X, pos, (tagLit k X).length⟩ ::
        scanTagsA r (pos + (tagLit k X).length) 0 := by
  have hlit : tagLit k X ≠ [] := by
    have := tagLit_length_pos k X
    intro he
    rw [he] at this
    simp at this
  obtain ⟨c, t, hct⟩ := List.exists_cons_of_ne_nil hlit
  have hm := matchTagAt_lit k X r hne hbr
  rw [hct, List.cons_append, scanTagsA_zero_eq, ← List.cons_append, ← hct, hm]
  dsimp only
  have hLt : (tagLit k X).length - 1 = t.length := by
    rw [hct]
    simp
  rw [hLt, scanTagsA_skip_append t r (pos + 1)]
  congr 2
  rw [hct]
  simp
  omega

theorem validateMarkdownContent_long {content : Str} (h : 100000 < content.length) :
    validateMarkdownContent content = false := by
  have hne : content ≠ [] := by
    intro he
    rw [he] at h
    simp at h
  rw [validateMarkdownContent, if_neg hne, if_pos h]

/-- Claim C10 core: over-long input fails content validation and `RichText`
returns the invalid-content error element without any span processing. -/
theorem richText_rejects_long (content : Str) (renderAsMarkdown inline : Bool)
    (h : 100000 < content.length) :
    validateMarkdownContent content = false ∧
      richText content renderAsMarkdown inline = some .errorDiv := by
  have hne : content ≠ [] := by
    intro he
    rw [he] at h
    simp at h
  have hv := validateMarkdownContent_long h
  refine ⟨hv, ?_⟩
  rw [richText, if_neg hne, hv]
  simp

theorem option_none_orElse (b : Option Nat) : (none <|> b) = b := rfl

theorem option_some_orElse (a : Nat) (b : Option Nat) : (some a <|> b) = some a := rfl

theorem option_map_none (f : Nat → Nat) : (none : Option Nat).map f = none := rfl

theorem findTopLevelEnvs_mismatch_pair (X Y mid : Str)
    (hX : X ≠ []) (hY : Y ≠ []) (hXY : X ≠ Y) (hbX : '}' ∉ X) (hbY : '}' ∉ Y)
    (hmid : '\\' ∉ mid) :
    findTopLevelEnvs (tagLit .beginT X ++ (mid ++ tagLit .endT Y)) = [] := by
  have hscan : scanTags (tagLit .beginT X ++ (mid ++ tagLit .endT Y)) =
      [⟨.beginT, X, 0, (tagLit .beginT X).length⟩,
       ⟨.endT, Y, 0 + (tagLit .beginT X).length + mid.length, (tagLit .endT Y).length⟩] := by
    rw [scanTags, scanTagsA_lit_cons .beginT X _ 0 hX hbX, scanTagsA_nobs mid hmid,
      ← List.append_nil (tagLit .endT Y),
      scanTagsA_lit_cons .endT Y [] _ hY hbY, scanTagsA_nil_eq]
    simp
  rw [findTopLevelEnvs, hscan, processTags_cons]
  dsimp only
  rw [processTags_cons]
  dsimp only
  rw [if_neg hXY, processTags_nil]
  rfl

theorem findTopLevelEnvs_interleaved_pair (A B : Str)
    (hA : A ≠ []) (hB : B ≠ []) (hAB : A ≠ B) (hbA : '}' ∉ A) (hbB : '}' ∉ B) :
    findTopLevelEnvs (tagLit .beginT A ++ (tagLit .beginT B ++
      (tagLit .endT A ++ tagLit .endT B))) = [] := by
  have hscan : scanTags (tagLit .beginT A ++ (tagLit .beginT B ++
      (tagLit .endT A ++ tagLit .endT B))) =
      [⟨.beginT, A, 0, (tagLit .beginT A).length⟩,
       ⟨.beginT, B, 0 + (tagLit .beginT A).length, (tagLit .beginT B).length⟩,
       ⟨.endT, A, 0 + (tagLit .beginT A).length + (tagLit .beginT B).length,
         (tagLit .endT A).length⟩,
       ⟨.endT, B, 0 + (tagLit .beginT A).length + (tagLit .beginT B).length +
         (tagLit .endT A).length, (tagLit .endT B).length⟩] := by
    rw [scanTags, scanTagsA_lit_cons .beginT A _ 0 hA hbA,
      scanTagsA_lit_cons .beginT B _ _ hB hbB,
      scanTagsA_lit_cons .endT A _ _ hA hbA,
      ← List.append_nil (tagLit .endT B),
      scanTagsA_lit_cons .endT B [] _ hB hbB, scanTagsA_nil_eq]
    simp
  rw [findTopLevelEnvs, hscan, processTags_cons]
  dsimp only
  rw [processTags_cons]
  dsimp only
  rw [processTags_cons]
  dsimp only
  rw [if_neg (fun h => hAB h.symm), processTags_cons]
  dsimp only
  rw [if_pos rfl, if_neg (by simp), processTags_nil]
  rfl

theorem scanA_eq_nil (m : Str → Option Nat) : ∀ (s : Str) (pos skip : Nat),
    (∀ k, m (s.drop k) = none) → scanA m s pos skip = [] := by
  intro s
  induction s with
  | nil => intro pos skip _; rfl
  | cons c cs ih =>
    intro pos skip h
    have h' : ∀ k, m (cs.drop k) = none := fun k => by
      have := h (k + 1)
      simpa using this
    cases skip with
    | succ sk => exact ih (pos + 1) sk h'
    | zero =>
      rw [scanA]
      have h0 := h 0
      simp at h0
      rw [h0]
      exact ih (pos + 1) 0 h'

theorem blockMatcher_none_of_no_delims {text : Str}
    (h2 : includesSub text (strL "\\[") = false)
    (h3 : includesSub text (strL "$$") = false) (k : Nat) :
    blockMatcher (text.drop k) = none := by
  have hd : startsWithL (strL "$$") (text.drop k) = false := by
    cases hsw : startsWithL (strL "$$") (text.drop k)
    · rfl
    · exact absurd (includesSub_of_startsWith_drop hsw) (by simp [h3])
  have hb : startsWithL (strL "\\[") (text.drop k) = false := by
    cases hsw : startsWithL (strL "\\[") (text.drop k)
    · rfl
    · exact absurd (includesSub_of_startsWith_drop hsw) (by simp [h2])
  rw [blockMatcher]
  simp [hd, hb]

theorem findBlockMathMatches_nil {text : Str}
    (h2 : includesSub text (strL "\\[") = false)
    (h3 : includesSub text (strL "$$") = false) :
    findBlockMathMatches text = [] := by
  rw [findBlockMathMatches, scanA_eq_nil _ text 0 0
    (blockMatcher_none_of_no_delims h2 h3)]
  rfl

theorem inlineAlt2_shape {s : Str} {n : Nat} (h : inlineAlt2 s = some n) :
    ∃ c1 u, s = '$' :: c1 :: u ∧ c1 ≠ '$' ∧ 3 ≤ n := by
  match s with
  | [] => simp [inlineAlt2] at h
  | [c0] => simp [inlineAlt2] at h
  | c0 :: c1 :: u =>
    rw [inlineAlt2] at h
    by_cases hc : c0 = '$' ∧ ¬ (c1 = '$' ∨ isJsSpace c1 = true)
    · rw [if_pos hc] at h
      obtain ⟨rfl, hc1⟩ := hc
      refine ⟨c1, u, rfl, fun he => hc1 (Or.inl he), ?_⟩
      cases hf : findSub ['$'] u with
      | none => rw [hf] at h; exact absurd h (by simp)
      | some d =>
        rw [hf] at h
        dsimp only at h
        by_cases hd : 1 ≤ d
        · rw [if_pos hd] at h
          cases hg : u.get? (d - 1) with
          | none => rw [hg] at h; exact absurd h (by simp)
          | some cp =>
            rw [hg] at h
            dsimp only at h
            by_cases hsp : isJsSpace cp = true
            · rw [if_pos hsp] at h; exact absurd h (by simp)
            · rw [if_neg hsp] at h
              have : d + 3 = n := by simpa using h
              omega
        · rw [if_neg hd] at h; exact absurd h (by simp)
    · rw [if_neg hc] at h
      exact absurd h (by simp)

theorem inlineAlt3_shape {s : Str} {n : Nat} (h : inlineAlt3 s = some n) :
    ∃ c1 u, s = '$' :: c1 :: u ∧ c1 ≠ '$' ∧ 3 ≤ n := by
  match s with
  | [] => simp [inlineAlt3] at h
  | c0 :: t =>
    rw [inlineAlt3] at h
    by_cases hc : c0 = '$'
    · rw [if_pos hc] at h
      subst hc
      set k := (t.takeWhile fun c => ¬ (c = '$' ∨ isJsSpace c = true)).length with hk
      by_cases hcond : 1 ≤ k ∧ t.get? k = some '$'
      · rw [if_pos hcond] at h
        have hn : k + 2 = n := by simpa using h
        obtain ⟨hk1, _⟩ := hcond
        match t with
        | [] => rw [hk] at hk1; simp at hk1
        | c1 :: u =>
          by_cases hp : (¬ (c1 = '$' ∨ isJsSpace c1 = true) : Prop)
          · exact ⟨c1, u, rfl, fun he => hp (Or.inl he), by omega⟩
          · exfalso
            rw [hk] at hk1
            rw [List.takeWhile_cons_of_neg (by simpa using hp)] at hk1
            simp at hk1
      · rw [if_neg hcond] at h
        exact absurd h (by simp)
    · rw [if_neg hc] at h
      exact absurd h (by simp)

theorem startsBlockDelim_eq_false {t : Str}
    (h1 : t.get? 0 ≠ some '$' ∨ t.get? 1 ≠ some '$')
    (h2 : t.get? 0 ≠ some '\\' ∨ t.get? 1 ≠ some '[') :
    startsBlockDelim t = false := by
  rw [startsBlockDelim]
  have hd : startsWithL (strL "$$") t = false := by
    cases hsw : startsWithL (strL "$$") t
    · rfl
    · have g0 := startsWithL_get hsw (i := 0) (by decide)
      have g1 := startsWithL_get hsw (i := 1) (by decide)
      rw [show (strL "$$").get? 0 = some '$' from rfl] at g0
      rw [show (strL "$$").get? 1 = some '$' from rfl] at g1
      rcases h1 with h | h
      · exact absurd g0 h
      · exact absurd g1 h
  have hb : startsWithL (strL "\\[") t = false := by
    cases hsw : startsWithL (strL "\\[") t
    · rfl
    · have g0 := startsWithL_get hsw (i := 0) (by decide)
      have g1 := startsWithL_get hsw (i := 1) (by decide)
      rw [show (strL "\\[").get? 0 = some '\\' from rfl] at g0
      rw [show (strL "\\[").get? 1 = some '[' from rfl] at g1
      rcases h2 with h | h
      · exact absurd g0 h
      · exact absurd g1 h
  rw [hd, hb]
  rfl

theorem startsBlockDelim_take_false_of_dollar {s : Str} {n : Nat} {c1 : Char}
    {u : Str} (hs : s = '$' :: c1 :: u) (hc1 : c1 ≠ '$') (hn : 3 ≤ n) :
    startsBlockDelim (s.take n) = false := by
  subst hs
  apply startsBlockDelim_eq_false
  · right
    rw [List.get?_take (by omega)]
    simp [hc1]
  · left
    rw [List.get?_take (by omega)]
    simp

theorem inlineMatcher_not_block {s : Str} {n : Nat} (h : inlineMatcher s = some n) :
    startsBlockDelim (s.take n) = false := by
  rw [inlineMatcher] at h
  by_cases hsw : startsWithL (strL "\\(") s = true
  · rw [if_pos hsw] at h
    have h0 : s.get? 0 = some '\\' := by
      rw [startsWithL_get hsw (i := 0) (by decide)]
      rfl
    have h1 : s.get? 1 = some '(' := by
      rw [startsWithL_get hsw (i := 1) (by decide)]
      rfl
    cases hf : findSub (strL "\\)") (s.drop 2) with
    | some j =>
      rw [hf] at h
      have hn : j + 4 = n := by simpa using h
      apply startsBlockDelim_eq_false
      · left
        rw [List.get?_take (by omega), h0]
        simp
      · right
        rw [List.get?_take (by omega), h1]
        simp
    | none =>
      rw [hf] at h
      rw [option_map_none, option_none_orElse] at h
      rcases ho : inlineAlt2 s with _ | n2
      · rw [ho, option_none_orElse] at h
        obtain ⟨c1, u, hs, _, _⟩ := inlineAlt3_shape h
        rw [hs] at h0
        simp at h0
      · rw [ho, option_some_orElse] at h
        obtain ⟨c1, u, hs, _, _⟩ := inlineAlt2_shape ho
        rw [hs] at h0
        simp at h0
  · rw [if_neg hsw, option_none_orElse] at h
    rcases ho : inlineAlt2 s with _ | n2
    · rw [ho, option_none_orElse] at h
      obtain ⟨c1, u, hs, hc1, hn⟩ := inlineAlt3_shape h
      exact startsBlockDelim_take_false_of_dollar hs hc1 hn
    · rw [ho, option_some_orElse] at h
      obtain ⟨c1, u, hs, hc1, hn2⟩ := inlineAlt2_shape ho
      have hne : n2 = n := by simpa using h
      exact startsBlockDelim_take_false_of_dollar hs hc1 (by omega)

theorem parseContent_all_nonblock_math (content : Str)
    (h1 : findTopLevelEnvs content = [])
    (h2 : includesSub content (strL "\\[") = false)
    (h3 : includesSub content (strL "$$") = false)
    (h4 : findSmilesMatches content = [])
    (h5 : findHeadingMatches content = []) :
    ∀ m ∈ parseContent content, m.type = .math ∧ startsBlockDelim m.content = false := by
  intro m hm
  simp only [parseContent] at hm
  have hm5 := mem_filterNestedMatches hm
  rw [h1] at hm5
  simp only [List.map_nil, List.append_nil] at hm5
  rw [h4, h5, findBlockMathMatches_nil h2 h3] at hm5
  simp only [List.nil_append, List.append_nil] at hm5
  rcases mem_addInlineMatches _ _ m hm5 with hacc | ⟨r, hr, rfl⟩
  · simp at hacc
  · obtain ⟨k, n, _, hidx, hmt, _, hstr, _⟩ := scanA_mem content 0 0 r hr
    refine ⟨rfl, ?_⟩
    have hnb := inlineMatcher_not_block hmt
    show startsBlockDelim r.str = false
    rw [hstr]
    exact hnb

/-- Claim C3 amended core: on fast-path-qualifying input (no environments, no
block-math delimiters, markdown enabled) that additionally has no SMILES tags,
no heading lines and a non-blank body, the two pipelines produce the same
element tree. -/
theorem fastPath_complex_eq (content : Str) (inline : Bool)
    (h1 : findTopLevelEnvs content = [])
    (h2 : includesSub content (strL "\\[") = false)
    (h3 : includesSub content (strL "$$") = false)
    (h4 : findSmilesMatches content = [])
    (h5 : findHeadingMatches content = [])
    (h6 : jsTrim content ≠ []) :
    renderWithComplexProcessing content true inline = renderWithPlaceholders content inline := by
  have hall := parseContent_all_nonblock_math content h1 h2 h3 h4 h5
  have hfilt : (parseContent content).filter (fun m =>
      match m.type with
      | .math => startsBlockDelim m.content
      | _ => true) = [] := by
    rw [List.filter_eq_nil]
    intro m hm
    obtain ⟨hty, hsb⟩ := hall m hm
    rw [hty]
    simp [hsb]
  have hnonnil : content ≠ [] := by
    intro he
    rw [he] at h6
    exact h6 rfl
  have hlen : 0 < content.length := List.length_pos.mpr hnonnil
  simp only [renderWithComplexProcessing, hfilt, List.enum_nil, List.foldl_nil]
  rw [if_pos hlen]
  simp only [List.drop_zero]
  rw [if_pos h6]
  simp [renderWithPlaceholders]

theorem contains_eq_false_of_all_wordChar {core : Str} {c : Char}
    (hcore : ∀ a ∈ core, isWordChar a = true) (hw : isWordChar c = false) :
    core.contains c = false := by
  cases hcon : core.contains c
  · rfl
  · have hmem : c ∈ core := by simpa using hcon
    rw [hcore c hmem] at hw
    exact absurd hw (by simp)

theorem isSmallVariableLatex_of_shape (ws1 core ws2 : Str)
    (hws1 : ∀ c ∈ ws1, isJsSpace c = true) (hws2 : ∀ c ∈ ws2, isJsSpace c = true)
    (hcore : ∀ c ∈ core, isWordChar c = true)
    (hlen1 : 1 ≤ core.length) (hlen3 : core.length ≤ 3)
    (hnub : '_' ∉ core) (hnfrac : containsSub core (strL "frac") = false) :
    isSmallVariableLatex (strL "\\(" ++ (ws1 ++ core ++ ws2) ++ strL "\\)") = some core ∧
    (isInlineLatexFragment (strL "\\(" ++ (ws1 ++ core ++ ws2) ++ strL "\\)")).isSome = true ∧
    shouldSkipMathFragment (strL "\\(" ++ (ws1 ++ core ++ ws2) ++ strL "\\)") = true := by
  set mid := ws1 ++ core ++ ws2 with hmid
  set frag := strL "\\(" ++ mid ++ strL "\\)" with hfragdef
  have hflen : frag.length = 2 + mid.length + 2 := by
    rw [hfragdef]
    simp [strL]
    omega
  have hstart : startsWithL (strL "\\(") frag = true := by
    have htk : frag.take (strL "\\(").length = strL "\\(" := by
      rw [hfragdef, List.append_assoc]
      exact List.take_left _ _
    simpa [startsWithL] using htk
  have hends : endsWithL (strL "\\)") frag = true := by
    rw [endsWithL, decide_eq_true_eq]
    constructor
    · rw [hflen]
      show 2 ≤ 2 + mid.length + 2
      omega
    · have h2 : frag.length - (strL "\\)").length = (strL "\\(" ++ mid).length := by
        rw [hflen]
        simp [strL]
        omega
      rw [h2, hfragdef, ← List.append_assoc]
      exact List.drop_left _ _
  have hmidex : (frag.drop 2).take (frag.length - 4) = mid := by
    have hd2 : frag.drop 2 = mid ++ strL "\\)" := by
      rw [hfragdef, List.append_assoc, show (2 : Nat) = (strL "\\(").length from rfl,
        List.drop_left]
    have hl4 : frag.length - 4 = mid.length := by
      rw [hflen]
      omega
    rw [hd2, hl4]
    exact List.take_left _ _
  have hcorene : core ≠ [] := by
    intro he
    rw [he] at hlen1
    simp at hlen1
  obtain ⟨c0, core', hc0⟩ := List.exists_cons_of_ne_nil hcorene
  have hdropWs : mid.dropWhile isJsSpace = core ++ ws2 := by
    rw [hmid, List.append_assoc, dropWhile_append_of_all hws1]
    rw [hc0, List.cons_append, List.dropWhile_cons_of_neg]
    rw [isJsSpace_false_of_isWordChar (hcore c0 (by rw [hc0]; simp))]
    simp
  have htwCore : (core ++ ws2).takeWhile isWordChar = core := by
    refine takeWhile_append_all_of_stop hcore ?_
    cases hws2c : ws2 with
    | nil => exact Or.inl rfl
    | cons w ws' =>
      refine Or.inr ⟨w, ws', rfl, ?_⟩
      exact not_isWordChar_of_isJsSpace (hws2 w (by rw [hws2c]; simp))
  have hrest : (core ++ ws2).drop core.length = ws2 := List.drop_left _ _
  have hrestAll : ws2.all isJsSpace = true := List.all_eq_true.mpr hws2
  have hsmall : isSmallVariableLatex frag = some core := by
    rw [isSmallVariableLatex, if_pos ⟨by omega, hstart, hends⟩]
    simp only [hmidex, hdropWs, htwCore, hrest]
    rw [if_pos ⟨hlen1, hlen3, hrestAll⟩]
    have hc1 : core.contains '\\' = false :=
      contains_eq_false_of_all_wordChar hcore (by decide)
    have hc2 : core.contains '{' = false :=
      contains_eq_false_of_all_wordChar hcore (by decide)
    have hc3 : core.contains '}' = false :=
      contains_eq_false_of_all_wordChar hcore (by decide)
    have hc4 : core.contains '^' = false :=
      contains_eq_false_of_all_wordChar hcore (by decide)
    have hc5 : core.contains '_' = false := by
      cases hcon : core.contains '_'
      · rfl
      · exfalso
        apply hnub
        simpa using hcon
    rw [hc1, hc2, hc3, hc4, hc5, hnfrac]
    simp
  have hmidlen : 1 ≤ mid.length := by
    rw [hmid]
    simp
    omega
  have hinline : (isInlineLatexFragment frag).isSome = true := by
    rw [isInlineLatexFragment, if_pos ⟨by omega, hstart, hends⟩]
    rfl
  refine ⟨hsmall, hinline, ?_⟩
  have hd : startsWithL (strL "$") frag = false := by
    cases hsw : startsWithL (strL "$") frag
    · rfl
    · have hg := startsWithL_get hsw (i := 0) (by decide)
      rw [show (strL "$").get? 0 = some '$' from rfl] at hg
      have hg0 : frag.get? 0 = some '\\' := by
        rw [hfragdef]
        rfl
      rw [hg0] at hg
      simp at hg
  rw [shouldSkipMathFragment]
  simp only [hd, Bool.false_and, Bool.false_eq_true, if_false, hstart, hends, hsmall,
    Bool.and_self, Option.isSome_some, Bool.and_true, Bool.true_and, if_true]

/-- Claim C1 (counterexample): on the input `$$\begin{a}$$x\end{a}` the parser
returns a block-math span and an environment span that overlap (positions 2–13
are covered by both), so the output is not mutually non-overlapping as the
claim states. -/
theorem claim1_counterexample :
    parseContent (strL "$$\\begin{a}$$x\\end{a}") =
      [⟨0, 13, strL "$$\\begin{a}$$", .math⟩,
       ⟨2, 21, strL "\\begin{a}$$x\\end{a}", .env⟩] ∧
    ¬ ((parseContent (strL "$$\\begin{a}$$x\\end{a}")).Pairwise fun a b =>
        a.endIdx ≤ b.start ∨ b.endIdx ≤ a.start) := by
  constructor
  · decide
  · decide

/-- Claim C1 (amended): for every input string, the span list returned by
`parseContent` is sorted ascending by start, no returned span is contained in
another returned span (partial overlaps may remain), and every returned span
satisfies `0 ≤ start < end ≤ length` with `content` equal to the substring of
the input from `start` to `end`. -/
theorem claim1_amended (text : Str) :
    ((parseContent text).Pairwise fun a b => a.start ≤ b.start) ∧
    ((parseContent text).Pairwise fun a b =>
      isNestedIn a b = false ∧ isNestedIn b a = false) ∧
    ∀ m ∈ parseContent text, m.start < m.endIdx ∧ m.endIdx ≤ text.length ∧
      m.content = sliceOf text m.start m.endIdx := by
  refine ⟨?_, ?_, parseContent_SpanOK⟩
  · simp only [parseContent]
    exact filterNestedMatches_sorted _
  · simp only [parseContent]
    exact filterNestedMatches_containment_free _

/-- Witness for C1 (amended): the inline-math span found in `a $x+y$ b`
satisfies the validity part of the theorem. -/
theorem claim1_amended_witness :
    (⟨2, 7, strL "$x+y$", .math⟩ : ContentMatch).start <
        (⟨2, 7, strL "$x+y$", .math⟩ : ContentMatch).endIdx ∧
      (⟨2, 7, strL "$x+y$", .math⟩ : ContentMatch).endIdx ≤ (strL "a $x+y$ b").length ∧
      (⟨2, 7, strL "$x+y$", .math⟩ : ContentMatch).content =
        sliceOf (strL "a $x+y$ b") (⟨2, 7, strL "$x+y$", .math⟩ : ContentMatch).start
          (⟨2, 7, strL "$x+y$", .math⟩ : ContentMatch).endIdx :=
  (claim1_amended (strL "a $x+y$ b")).2.2 _ (by decide)

/-- Claim C2: inputs whose begin/end names do not pair up — a single
begin/end pair with different names, and the interleaved shape
`\begin{A}\begin{B}\end{A}\end{B}` with `A ≠ B` — make `findTopLevelEnvs`
emit zero environment spans: the mismatched end tag is silently ignored. -/
theorem claim2_mismatched_envs_emit_nothing :
    (∀ X Y mid : Str, X ≠ [] → Y ≠ [] → X ≠ Y → '}' ∉ X → '}' ∉ Y → '\\' ∉ mid →
      findTopLevelEnvs (tagLit .beginT X ++ (mid ++ tagLit .endT Y)) = []) ∧
    (∀ A B : Str, A ≠ [] → B ≠ [] → A ≠ B → '}' ∉ A → '}' ∉ B →
      findTopLevelEnvs (tagLit .beginT A ++ (tagLit .beginT B ++
        (tagLit .endT A ++ tagLit .endT B))) = []) :=
  ⟨findTopLevelEnvs_mismatch_pair, findTopLevelEnvs_interleaved_pair⟩

/-- Witness for C2: `\begin{itemize}x\end{enumerate}` and
`\begin{A}\begin{B}\end{A}\end{B}` both emit zero spans. -/
theorem claim2_witness :
    findTopLevelEnvs (tagLit .beginT (strL "itemize") ++
      (strL "x" ++ tagLit .endT (strL "enumerate"))) = [] ∧
    findTopLevelEnvs (tagLit .beginT (strL "A") ++ (tagLit .beginT (strL "B") ++
      (tagLit .endT (strL "A") ++ tagLit .endT (strL "B")))) = [] :=
  ⟨claim2_mismatched_envs_emit_nothing.1 _ _ _ (by decide) (by decide) (by decide)
      (by decide) (by decide) (by decide),
   claim2_mismatched_envs_emit_nothing.2 _ _ (by decide) (by decide) (by decide)
      (by decide) (by decide)⟩

/-- Claim C3 (counterexample): the input `# Hi` qualifies for the fast path
(no environment spans, no block-math delimiters), yet the two pipelines
produce different element trees — the complex path renders the heading
natively inside a keyed wrapper, the fast path hands the raw text to the
markdown engine. -/
theorem claim3_counterexample :
    findTopLevelEnvs (strL "# Hi") = [] ∧
    includesSub (strL "# Hi") (strL "\\[") = false ∧
    includesSub (strL "# Hi") (strL "$$") = false ∧
    renderWithComplexProcessing (strL "# Hi") true false ≠
      renderWithPlaceholders (strL "# Hi") false := by
  refine ⟨by decide, by decide, by decide, by decide⟩

/-- Witness for C3 (amended): on the plain input `hi` the two pipelines agree. -/
theorem claim3_amended_witness :
    renderWithComplexProcessing (strL "hi") true false =
      renderWithPlaceholders (strL "hi") false :=
  fastPath_complex_eq (strL "hi") false (by decide) (by decide) (by decide)
    (by decide) (by decide) (by decide)

/-- Claim C4 (counterexample): a string containing `\input{` passes
`validateMarkdownContent` (which checks only HTML/script patterns and length),
and `RichText` proceeds to render it rather than returning the invalid-content
error element. -/
theorem claim4_counterexample :
    validateMarkdownContent (strL "\\input{x}") = true ∧
    richText (strL "\\input{x}") true false =
      some (.proseDiv [.mdFragment (strL "\\input{x}") 0]) ∧
    richText (strL "\\input{x}") true false ≠ some .errorDiv := by
  refine ⟨by decide, by decide, by decide⟩

/-- Claim C4 (amended): disallowed LaTeX primitives are not rejected at the
content-validation gate; `validateMarkdownContent` accepts `\input{x}` and
`RichText` segments and renders it, while `validateLatexInput` is the check
that flags such primitives and the per-span renderer shows an error element
for a math/env span containing them; ordinary math/environment strings pass
both validators. -/
theorem claim4_amended :
    validateMarkdownContent (strL "\\input{x}") = true ∧
    richText (strL "\\input{x}") true false =
      some (.proseDiv [.mdFragment (strL "\\input{x}") 0]) ∧
    validateLatexInput (strL "\\input{x}") = false ∧
    renderMatchedContent ⟨0, 9, strL "\\input{x}", .math⟩ 0 = .latexErrorDiv 0 ∧
    validateLatexInput (strL "$x^2 + y^2$") = true ∧
    validateMarkdownContent (strL "$x^2 + y^2$") = true ∧
    validateLatexInput (strL "\\begin{itemize}\\item a\\end{itemize}") = true ∧
    validateMarkdownContent (strL "\\begin{itemize}\\item a\\end{itemize}") = true := by
  refine ⟨by decide, by decide, by decide, by decide, by decide, by decide, by decide,
    by decide⟩

/-- Claim C5 (counterexample): the fragment `$10 and x$` does match a
SelectiveMath indicator pattern (the digit–whitespace–letter pattern), so it is
not PlainText, and scanning `Price is $10 and x$y` produces a math span. -/
theorem claim5_counterexample :
    isSelectiveInlineLatex (strL "$10 and x$") = some (strL "10 and x") ∧
    parseContent (strL "Price is $10 and x$y") =
      [⟨9, 19, strL "$10 and x$", .math⟩] := by
  refine ⟨by decide, by decide⟩

/-- Claim C5 (amended): the inner content `10 and x` matches the ninth
indicator pattern `\d+\s*[a-zA-Z]` (which permits whitespace between the digits
and the letter), so `$10 and x$` is classified SelectiveMath, is not skipped,
and scanning `Price is $10 and x$y` produces exactly the math span
`$10 and x$` at positions 9–19. -/
theorem claim5_amended :
    selPat9 (strL "10 and x") = true ∧
    mathIndicator (strL "10 and x") = true ∧
    isSelectiveInlineLatex (strL "$10 and x$") = some (strL "10 and x") ∧
    shouldSkipMathFragment (strL "$10 and x$") = false ∧
    parseContent (strL "Price is $10 and x$y") =
      [⟨9, 19, strL "$10 and x$", .math⟩] := by
  refine ⟨by decide, by decide, by decide, by decide, by decide⟩

/-- Claim C6: every fragment that is exactly `\(…\)` whose trimmed inner
content is one to three `[a-zA-Z_0-9]` characters containing no underscore (and
none of the other banned characters, which the character class already
excludes) is recognised by `isSmallVariableLatex` and is skipped by the math
scanner — SmallVariable takes priority over InlineMath; in particular `\(x\)`
is SmallVariable with body `x` while `\(x^2\)` is InlineMath with body `x^2`. -/
theorem claim6_smallVariable_priority :
    (∀ ws1 core ws2 : Str, (∀ c ∈ ws1, isJsSpace c = true) →
      (∀ c ∈ ws2, isJsSpace c = true) → (∀ c ∈ core, isWordChar c = true) →
      1 ≤ core.length → core.length ≤ 3 → '_' ∉ core →
      containsSub core (strL "frac") = false →
      isSmallVariableLatex (strL "\\(" ++ (ws1 ++ core ++ ws2) ++ strL "\\)") = some core ∧
      (isInlineLatexFragment (strL "\\(" ++ (ws1 ++ core ++ ws2) ++ strL "\\)")).isSome = true ∧
      shouldSkipMathFragment (strL "\\(" ++ (ws1 ++ core ++ ws2) ++ strL "\\)") = true) ∧
    isSmallVariableLatex (strL "\\(x\\)") = some (strL "x") ∧
    shouldSkipMathFragment (strL "\\(x\\)") = true ∧
    isSmallVariableLatex (strL "\\(x^2\\)") = none ∧
    isInlineLatexFragment (strL "\\(x^2\\)") = some (strL "x^2") ∧
    shouldSkipMathFragment (strL "\\(x^2\\)") = false := by
  refine ⟨isSmallVariableLatex_of_shape, by decide, by decide, by decide, by decide,
    by decide⟩

/-- Witness for C6: the fragment `\(ab \)` (body `ab`, trailing space) is
recognised as a small variable and skipped by the math scanner. -/
theorem claim6_witness :
    isSmallVariableLatex (strL "\\(" ++ ([] ++ strL "ab" ++ [' ']) ++ strL "\\)")
      = some (strL "ab") ∧
    (isInlineLatexFragment (strL "\\(" ++ ([] ++ strL "ab" ++ [' ']) ++ strL "\\)")).isSome
      = true ∧
    shouldSkipMathFragment (strL "\\(" ++ ([] ++ strL "ab" ++ [' ']) ++ strL "\\)")
      = true :=
  claim6_smallVariable_priority.1 [] (strL "ab") [' '] (by decide) (by decide)
    (by decide) (by decide) (by decide) (by decide) (by decide)

/-- Witness for C7: on `\begin{itemize}x\end{itemize}` the bound holds and the
single emitted span is a complete environment. -/
theorem claim7_witness :
    (findTopLevelEnvs (strL "\\begin{itemize}x\\end{itemize}")).length ≤
      countBegins (strL "\\begin{itemize}x\\end{itemize}") ∧
    (isLatexEnvironmentM
      ((⟨0, 29, strL "\\begin{itemize}x\\end{itemize}"⟩ : LatexEnv)).content).isSome
        = true :=
  ⟨(findTopLevelEnvs_count_and_complete (strL "\\begin{itemize}x\\end{itemize}")).1,
   (findTopLevelEnvs_count_and_complete (strL "\\begin{itemize}x\\end{itemize}")).2 _
     (by decide)⟩

/-- Claim C8: expanding `\begin{itemize}\item A\item B\end{itemize}` yields
exactly two items whose trimmed bodies are `A` and `B`. -/
theorem claim8_itemize_items :
    (parseLatexListItems (strL "\\begin{itemize}\\item A\\item B\\end{itemize}")).map jsTrim
      = [strL "A", strL "B"] ∧
    (parseLatexListItems (strL "\\begin{itemize}\\item A\\item B\\end{itemize}")).length
      = 2 := by
  refine ⟨by decide, by decide⟩

/-- Witness for C10: an input of 100001 characters fails validation and is
rejected with the error element. -/
theorem claim10_witness :
    validateMarkdownContent (List.replicate 100001 'a') = false ∧
      richText (List.replicate 100001 'a') true false = some .errorDiv :=
  richText_rejects_long (List.replicate 100001 'a') true false
    (by rw [List.length_replicate]; omega)

end SciText
